import Mathlib

/-!
# The Raft log store (`raft_log.c`)

A shallow embedding of the circular log buffer of `src/src/raft_log.c` and the
properties its specification states about it.

Modelling conventions.

* C `int` values are mathematical integers (`Int`), which is what the program
  computes as long as no `int` leaves its range.  The two operations that step
  the cursors, `log_append_entry` and `log_delete`, are also given with those
  steps computed in 32 bits (`log_append_entry_int`, `log_delete_int`); the
  statements that reach the ends of the range (`back = INT_MAX`,
  `idx = INT_MIN`) are made about these.  The capacity is left unbounded: a
  doubling past `INT_MAX` needs more than 10^9 live entries.
* `REL_POS` is C's `%`, which truncates towards zero: `Int.tmod`.
* The heap block `me->entries` is a map from slot number to entry; `size` is
  the number of slots the block really has.  A pointer into the block is the
  slot number it addresses.
* The two `while` loops take fuel; the functions that run them supply an amount
  that is shown to be enough (or the loop is shown never to finish).
* The collaborators reached through `me->raft` (the user data handed to the
  persistence callbacks, and the consensus module's own bookkeeping) are kept
  in the `raft` field together with a record of every call made to them.
-/

namespace RaftLog

/-! ## Data model -/

/-- Modelled from the spec: `raft_entry_t` is declared in `raft.h`, which is not
among the sources. An entry is a term, a unique id, a type tag and an opaque
payload; the log only ever copies it whole (`memcpy`). -/
structure raft_entry_t where
  term : Int
  id : Int
  type : Int
  data : List Nat
deriving DecidableEq, Repr

/-- The all-zero entry that `calloc` leaves in a fresh slot. -/
def raft_entry_t.zero : raft_entry_t := ⟨0, 0, 0, []⟩

/-- One call made by the log to a collaborator: the callee, the entry passed and
the index argument. -/
inductive call_t where
  | cb_log_offer (ety : raft_entry_t) (idx : Int)
  | raft_offer_log (ety : raft_entry_t) (idx : Int)
  | cb_log_pop (ety : raft_entry_t) (idx : Int)
  | raft_pop_log (ety : raft_entry_t) (idx : Int)
  | cb_log_poll (ety : raft_entry_t) (idx : Int)
deriving DecidableEq, Repr

/-- Modelled from the spec: `raft_cbs_t` is declared in `raft.h`, which is not
among the sources. Each member is a function pointer that may be NULL; a
callback receives the user data, the entry and an index, may change the user
data, and returns a status. -/
structure raft_cbs_t (σ : Type) where
  log_offer : Option (σ → raft_entry_t → Int → σ × Int)
  log_pop : Option (σ → raft_entry_t → Int → σ × Int)
  log_poll : Option (σ → raft_entry_t → Int → σ × Int)

/-- Modelled from the spec: the consensus module behind `me->raft` lives in
`raft_server.c`, which is not among the sources. The log only reads its user
data and notifies it; the model keeps the user data and the calls received. -/
structure raft_server_t (σ : Type) where
  udata : σ
  calls : List call_t

/-- The struct `log_private_t`. -/
structure log_private_t (σ : Type) where
  size : Int
  count : Int
  front : Int
  back : Int
  entries : Int → raft_entry_t
  cb : Option (raft_cbs_t σ)
  raft : raft_server_t σ

/-- What `log_get_at_idx` can do: abort on its assertion, return NULL, or return
a pointer to a slot (given here by the entry the slot holds). -/
inductive get_result where
  | assert_failed
  | null
  | found (ety : raft_entry_t)
deriving DecidableEq, Repr

/-- What `log_get_from_idx` can do: abort on its assertion, return NULL, or return
a pointer to a slot; in the last two cases it has stored `n_etys`. -/
inductive range_result where
  | assert_failed
  | null (n_etys : Int)
  | view (slot : Int) (n_etys : Int)
deriving DecidableEq, Repr

/-! ## Collaborators -/

/-- Modelled from the spec: `raft_get_udata` of `raft_server.c` returns the user
data registered with the server. -/
def raft_get_udata {σ : Type} (raft : raft_server_t σ) : σ := raft.udata

/-- Modelled from the spec: `raft_offer_log` of `raft_server.c` is the consensus
module's bookkeeping for an offered entry; it does not touch the log. -/
def raft_offer_log {σ : Type} (raft : raft_server_t σ) (ety : raft_entry_t) (idx : Int) :
    raft_server_t σ :=
  { raft with calls := raft.calls ++ [call_t.raft_offer_log ety idx] }

/-- Modelled from the spec: `raft_pop_log` of `raft_server.c` is the consensus
module's bookkeeping for a popped entry; it does not touch the log. -/
def raft_pop_log {σ : Type} (raft : raft_server_t σ) (ety : raft_entry_t) (idx : Int) :
    raft_server_t σ :=
  { raft with calls := raft.calls ++ [call_t.raft_pop_log ety idx] }

/-- A call through a callback pointer `f(me->raft, ud, ety, idx)`: the call is
recorded, the user data becomes what the callback leaves, and the status is
returned. -/
def call_cb {σ : Type} (raft : raft_server_t σ) (f : σ → raft_entry_t → Int → σ × Int)
    (ud : σ) (tag : raft_entry_t → Int → call_t) (ety : raft_entry_t) (idx : Int) :
    Int × raft_server_t σ :=
  ((f ud ety idx).2, { udata := (f ud ety idx).1, calls := raft.calls ++ [tag ety idx] })

/-! ## The operations of `raft_log.c` -/

/-- The macro `INITIAL_CAPACITY`, defined as 10. -/
def INITIAL_CAPACITY : Int := 10

/-- The macro `REL_POS(_i, _s)`, defined as `((_i) % (_s))`. -/
def REL_POS (i s : Int) : Int := Int.tmod i s

/-- The function `__get_ety`: the slot addressed by `&me->entries[REL_POS(idx, me->size)]`. -/
def __get_ety {σ : Type} (me : log_private_t σ) (idx : Int) : Int :=
  REL_POS idx me.size

/-- The `for (i = me->front; i < me->back; i++) memcpy(...)` loop of
`__ensurecapacity`, started at `i` with `n` iterations left to run. -/
def __ensurecapacity_copy {σ : Type} (me : log_private_t σ) :
    Nat → Int → (Int → raft_entry_t) → (Int → raft_entry_t)
  | 0, _, temp => temp
  | n + 1, i, temp =>
    if i < me.back then
      __ensurecapacity_copy me n (i + 1)
        (Function.update temp (REL_POS i (2 * me.size)) (me.entries (REL_POS i me.size)))
    else temp

/-- The body of the `while` loop of `__ensurecapacity`: one doubling. -/
def __ensurecapacity_grow {σ : Type} (me : log_private_t σ) : log_private_t σ :=
  let temp : Int → raft_entry_t := fun _ => raft_entry_t.zero
  let temp := __ensurecapacity_copy me (me.back - me.front).toNat me.front temp
  { me with size := me.size * 2, entries := temp }

/-- The `while (me->size < me->count + count)` loop of `__ensurecapacity`;
`none` when the fuel runs out before the loop condition fails. -/
def __ensurecapacity_loop {σ : Type} :
    Nat → log_private_t σ → Int → Option (log_private_t σ)
  | 0, me, count => if me.size < me.count + count then none else some me
  | fuel + 1, me, count =>
    if me.size < me.count + count then
      __ensurecapacity_loop fuel (__ensurecapacity_grow me) count
    else some me

/-- The function `__ensurecapacity`; `none` stands for a loop that never finishes. -/
def __ensurecapacity {σ : Type} (me : log_private_t σ) (count : Int) :
    Option (log_private_t σ) :=
  if me.count + count ≤ me.size then some me
  else __ensurecapacity_loop (me.count + count - me.size).toNat me count

/-- The function `log_clear` -/
def log_clear {σ : Type} (me : log_private_t σ) : log_private_t σ :=
  { me with count := 0, back := 0, front := 0 }

/-- The function `log_load_from_snapshot` -/
def log_load_from_snapshot {σ : Type} (me : log_private_t σ) (idx : Int)
    (entry : raft_entry_t) : log_private_t σ :=
  if idx ≤ 0 then log_clear me
  else
    let me := { me with front := idx - 1 }
    let me := { me with back := idx }
    let me := { me with entries := Function.update me.entries (__get_ety me me.front) entry }
    { me with count := 1 }

/-- The function `log_new`: the `calloc`ed struct has no callbacks and no server; the server
is modelled by one with default user data that has received no call. -/
def log_new {σ : Type} [Inhabited σ] : log_private_t σ :=
  let me : log_private_t σ :=
    { size := 0, count := 0, front := 0, back := 0, entries := fun _ => raft_entry_t.zero,
      cb := none, raft := { udata := default, calls := [] } }
  let me := { me with size := INITIAL_CAPACITY }
  let me := log_clear me
  { me with entries := fun _ => raft_entry_t.zero }

/-- The function `log_set_callbacks` -/
def log_set_callbacks {σ : Type} (me : log_private_t σ) (funcs : Option (raft_cbs_t σ))
    (raft : raft_server_t σ) : log_private_t σ :=
  { me with raft := raft, cb := funcs }

/-- The persistence callback `log_offer`, when `me->cb && me->cb->log_offer`. -/
def offer_cb {σ : Type} (me : log_private_t σ) : Option (σ → raft_entry_t → Int → σ × Int) :=
  match me.cb with
  | some cb => cb.log_offer
  | none => none

/-- The persistence callback `log_pop`, when `me->cb && me->cb->log_pop`. -/
def pop_cb {σ : Type} (me : log_private_t σ) : Option (σ → raft_entry_t → Int → σ × Int) :=
  match me.cb with
  | some cb => cb.log_pop
  | none => none

/-- The persistence callback `log_poll`, when `me->cb && me->cb->log_poll`. -/
def poll_cb {σ : Type} (me : log_private_t σ) : Option (σ → raft_entry_t → Int → σ × Int) :=
  match me.cb with
  | some cb => cb.log_poll
  | none => none

/-- The function `log_append_entry`, after `__ensurecapacity(me, 1)` has returned.
`RAFT_ERR_SHUTDOWN` is a constant of `raft.h`, which is not among the sources. -/
def log_append_entry_body {σ : Type} (RAFT_ERR_SHUTDOWN : Int) (me : log_private_t σ)
    (ety : raft_entry_t) : Int × log_private_t σ :=
  match offer_cb me with
  | some f =>
    let ud := raft_get_udata me.raft
    let r := call_cb me.raft f ud call_t.cb_log_offer ety me.back
    let e := r.1
    let me := { me with raft := raft_offer_log r.2 ety me.back }
    if e = RAFT_ERR_SHUTDOWN then (e, me)
    else
      let me := { me with entries := Function.update me.entries (__get_ety me me.back) ety }
      let me := { me with count := me.count + 1 }
      let me := { me with back := me.back + 1 }
      (e, me)
  | none =>
    let e := 0
    let me := { me with entries := Function.update me.entries (__get_ety me me.back) ety }
    let me := { me with count := me.count + 1 }
    let me := { me with back := me.back + 1 }
    (e, me)

/-- The function `log_append_entry`: the returned status and the log afterwards; `none` when
`__ensurecapacity` never returns. -/
def log_append_entry {σ : Type} (RAFT_ERR_SHUTDOWN : Int) (me : log_private_t σ)
    (ety : raft_entry_t) : Option (Int × log_private_t σ) :=
  match __ensurecapacity me 1 with
  | none => none
  | some me => some (log_append_entry_body RAFT_ERR_SHUTDOWN me ety)

/-- The function `log_get_from_idx`: the pointer returned and the value stored in
`*n_etys`. -/
def log_get_from_idx {σ : Type} (me : log_private_t σ) (idx : Int) : range_result :=
  if ¬ (0 ≤ idx - 1) then range_result.assert_failed
  else
    let idx := idx - 1
    if idx < me.front ∨ me.back ≤ idx then range_result.null 0
    else
      let i := REL_POS idx me.size
      let back := REL_POS me.back me.size
      let logs_till_end_of_log := if i < back then back - i else me.size - i
      range_result.view i logs_till_end_of_log

/-- The function `log_get_at_idx` -/
def log_get_at_idx {σ : Type} (me : log_private_t σ) (idx : Int) : get_result :=
  if ¬ (0 ≤ idx - 1) then get_result.assert_failed
  else
    let idx := idx - 1
    if idx < me.front ∨ me.back ≤ idx then get_result.null
    else get_result.found (me.entries (__get_ety me idx))

/-- The function `log_count` -/
def log_count {σ : Type} (me : log_private_t σ) : Int := me.count

/-- One iteration of the `while` loop of `log_delete`. -/
def log_delete_step {σ : Type} (me : log_private_t σ) : log_private_t σ :=
  let ety := me.entries (__get_ety me (me.back - 1))
  let me :=
    match pop_cb me with
    | some f =>
      { me with raft := (call_cb me.raft f (raft_get_udata me.raft) call_t.cb_log_pop
                          ety me.back).2 }
    | none => me
  let me := { me with raft := raft_pop_log me.raft ety me.back }
  let me := { me with back := me.back - 1 }
  { me with count := me.count - 1 }

/-- The `while (idx <= me->back)` loop of `log_delete`; `none` when the fuel
runs out before the loop condition fails. -/
def log_delete_loop {σ : Type} : Nat → log_private_t σ → Int → Option (log_private_t σ)
  | 0, me, idx => if idx ≤ me.back then none else some me
  | fuel + 1, me, idx =>
    if idx ≤ me.back then log_delete_loop fuel (log_delete_step me) idx else some me

/-- The function `log_delete`, run with the fuel `back - idx + 1`. -/
def log_delete {σ : Type} (me : log_private_t σ) (idx : Int) : Option (log_private_t σ) :=
  log_delete_loop (me.back - idx + 1).toNat me idx

/-- The function `log_poll`: the entry behind the returned pointer (`none` for NULL) and the
log afterwards. -/
def log_poll {σ : Type} (me : log_private_t σ) : Option raft_entry_t × log_private_t σ :=
  if 0 = log_count me then (none, me)
  else
    let ety := me.entries (__get_ety me me.front)
    let me :=
      match poll_cb me with
      | some f =>
        { me with raft := (call_cb me.raft f (raft_get_udata me.raft) call_t.cb_log_poll
                            ety me.front).2 }
      | none => me
    let me := { me with front := me.front + 1 }
    let me := { me with count := me.count - 1 }
    (some ety, me)

/-- The function `log_offer_first`: the returned status and the log afterwards. -/
def log_offer_first {σ : Type} (RAFT_ERR_SHUTDOWN : Int) (me : log_private_t σ)
    (ety : raft_entry_t) : Int × log_private_t σ :=
  if me.front = 0 then (-1, me)
  else
    let me := { me with front := me.front - 1 }
    match offer_cb me with
    | some f =>
      let ud := raft_get_udata me.raft
      let r := call_cb me.raft f ud call_t.cb_log_offer ety me.front
      let e := r.1
      let me := { me with raft := r.2 }
      if e = RAFT_ERR_SHUTDOWN then (e, me)
      else
        let me := { me with entries := Function.update me.entries (__get_ety me me.front) ety }
        (e, { me with count := me.count + 1 })
    | none =>
      let e := 0
      let me := { me with entries := Function.update me.entries (__get_ety me me.front) ety }
      (e, { me with count := me.count + 1 })

/-- The function `log_peektail`: the entry behind the returned pointer (`none` for NULL). -/
def log_peektail {σ : Type} (me : log_private_t σ) : Option raft_entry_t :=
  if 0 = log_count me then none
  else some (me.entries (__get_ety me (me.back - 1)))

/-- The function `log_get_current_idx` -/
def log_get_current_idx {σ : Type} (me : log_private_t σ) : Int := me.back

/-! ## The cursors as 32-bit `int`s

The definitions above compute on unbounded integers; they describe the program
as long as no `int` leaves its range. The definitions below are the two
operations that move `back` and `count` step by step, with those steps computed
in 32 bits as the compiled program computes them. -/

/-- The largest value of an `int` (32 bits). -/
def INT_MAX : Int := 2147483647

/-- The smallest value of an `int` (32 bits). -/
def INT_MIN : Int := -2147483648

/-- The `int` the program holds after computing `x`: `x` reduced modulo 2^32 into
the range from `INT_MIN` to `INT_MAX`. -/
def wrap_int (x : Int) : Int := (x - INT_MIN) % 4294967296 + INT_MIN

/-- The function `log_append_entry`, after `__ensurecapacity(me, 1)` has returned,
with `me->count += 1` and `me->back += 1` computed in 32 bits. -/
def log_append_entry_body_int {σ : Type} (RAFT_ERR_SHUTDOWN : Int) (me : log_private_t σ)
    (ety : raft_entry_t) : Int × log_private_t σ :=
  match offer_cb me with
  | some f =>
    let ud := raft_get_udata me.raft
    let r := call_cb me.raft f ud call_t.cb_log_offer ety me.back
    let e := r.1
    let me := { me with raft := raft_offer_log r.2 ety me.back }
    if e = RAFT_ERR_SHUTDOWN then (e, me)
    else
      let me := { me with entries := Function.update me.entries (__get_ety me me.back) ety }
      let me := { me with count := wrap_int (me.count + 1) }
      let me := { me with back := wrap_int (me.back + 1) }
      (e, me)
  | none =>
    let e := 0
    let me := { me with entries := Function.update me.entries (__get_ety me me.back) ety }
    let me := { me with count := wrap_int (me.count + 1) }
    let me := { me with back := wrap_int (me.back + 1) }
    (e, me)

/-- The function `log_append_entry` with its two increments computed in 32 bits;
`none` when `__ensurecapacity` never returns. -/
def log_append_entry_int {σ : Type} (RAFT_ERR_SHUTDOWN : Int) (me : log_private_t σ)
    (ety : raft_entry_t) : Option (Int × log_private_t σ) :=
  match __ensurecapacity me 1 with
  | none => none
  | some me => some (log_append_entry_body_int RAFT_ERR_SHUTDOWN me ety)

/-- One iteration of the `while` loop of `log_delete`, with `me->back - 1`,
`me->back--` and `me->count--` computed in 32 bits. -/
def log_delete_step_int {σ : Type} (me : log_private_t σ) : log_private_t σ :=
  let ety := me.entries (__get_ety me (wrap_int (me.back - 1)))
  let me :=
    match pop_cb me with
    | some f =>
      { me with raft := (call_cb me.raft f (raft_get_udata me.raft) call_t.cb_log_pop
                          ety me.back).2 }
    | none => me
  let me := { me with raft := raft_pop_log me.raft ety me.back }
  let me := { me with back := wrap_int (me.back - 1) }
  { me with count := wrap_int (me.count - 1) }

/-- The `while (idx <= me->back)` loop of `log_delete` over 32-bit cursors; `none`
when the fuel runs out before the loop condition fails. -/
def log_delete_loop_int {σ : Type} : Nat → log_private_t σ → Int → Option (log_private_t σ)
  | 0, me, idx => if idx ≤ me.back then none else some me
  | fuel + 1, me, idx =>
    if idx ≤ me.back then log_delete_loop_int fuel (log_delete_step_int me) idx else some me

/-- The function `log_delete` over 32-bit cursors, run with the fuel
`back - idx + 1`; `none` stands for a loop that never finishes. -/
def log_delete_int {σ : Type} (me : log_private_t σ) (idx : Int) :
    Option (log_private_t σ) :=
  log_delete_loop_int (me.back - idx + 1).toNat me idx

/-! ## Invariants and drivers used by the statements -/

/-- The invariant of the data model: `0 ≤ front ≤ back`, `count = back - front`
and `back - front ≤ size`. -/
def log_inv {σ : Type} (me : log_private_t σ) : Prop :=
  0 ≤ me.front ∧ me.front ≤ me.back ∧ me.count = me.back - me.front ∧
    me.back - me.front ≤ me.size

/-- The invariant together with an allocated array (`size ≥ 1`). -/
def log_wf {σ : Type} (me : log_private_t σ) : Prop :=
  log_inv me ∧ 1 ≤ me.size

/-- The status the persistence callback `log_offer` gives for `ety` at `idx` in
the log's present state; 0 when no such callback is registered. -/
def offer_status {σ : Type} (me : log_private_t σ) (ety : raft_entry_t) (idx : Int) : Int :=
  match offer_cb me with
  | some f => (f me.raft.udata ety idx).2
  | none => 0

/-- Calling `log_append_entry` once for each entry of a list, in order: the
statuses returned and the log afterwards. -/
def append_all {σ : Type} (RAFT_ERR_SHUTDOWN : Int) :
    log_private_t σ → List raft_entry_t → Option (List Int × log_private_t σ)
  | me, [] => some ([], me)
  | me, e :: es =>
    match log_append_entry RAFT_ERR_SHUTDOWN me e with
    | none => none
    | some r =>
      match append_all RAFT_ERR_SHUTDOWN r.2 es with
      | none => none
      | some rs => some (r.1 :: rs.1, rs.2)

/-- An entry that is all zero but for its id, as the tests build theirs. -/
def entry_with_id (n : Int) : raft_entry_t := { raft_entry_t.zero with id := n }

/-- A full log whose live range wraps round the end of the array: capacity 2,
absolute indices 1 and 2 live, held in slots 1 and 0. -/
def sample_wrapped : log_private_t Unit :=
  { size := 2, count := 2, front := 1, back := 3,
    entries := fun slot => if slot = 0 then entry_with_id 3 else entry_with_id 2,
    cb := none, raft := { udata := (), calls := [] } }

/-- A log with room on both sides, as three appends and one poll leave it:
capacity 10, absolute indices 1 and 2 live. -/
def sample_polled : log_private_t Unit :=
  { size := 10, count := 2, front := 1, back := 3,
    entries := fun slot => entry_with_id (slot + 1),
    cb := none, raft := { udata := (), calls := [] } }

/-- A persistence backend whose `log_offer` answers every offer with the status
`S` and counts the offers in its user data. -/
def refusing_cbs (S : Int) : raft_cbs_t Nat :=
  { log_offer := some (fun ud _ _ => (ud + 1, S)), log_pop := none, log_poll := none }

/-- A new log wired to `refusing_cbs S`. -/
def sample_refusing (S : Int) : log_private_t Nat :=
  log_set_callbacks log_new (some (refusing_cbs S)) { udata := 0, calls := [] }

/-- The log `sample_refusing S` as it would stand with absolute indices 1 and 2
live. -/
def sample_refusing_polled (S : Int) : log_private_t Nat :=
  { sample_refusing S with front := 1, back := 3, count := 2 }

/-- A full log with `front > 0`, reached through the public operations: ten
appends to a new log, one poll, one more append. -/
def sample_full (S : Int) : Option (log_private_t Unit) :=
  match append_all S (log_new : log_private_t Unit)
      ((List.range 10).map (fun n => entry_with_id ((n : Int) + 1))) with
  | none => none
  | some r =>
    match log_append_entry S (log_poll r.2).2 (entry_with_id 11) with
    | none => none
    | some a => some a.2

/-- A persistence backend that accepts everything: each callback answers 0 and
appends the id of the entry it was given to the user data. -/
def recording_cbs : raft_cbs_t (List Int) :=
  { log_offer := some (fun ud ety _ => (ud ++ [ety.id], 0)),
    log_pop := some (fun ud ety _ => (ud ++ [ety.id], 0)),
    log_poll := some (fun ud ety _ => (ud ++ [ety.id], 0)) }

/-- A new log wired to `recording_cbs`. -/
def sample_recording : log_private_t (List Int) :=
  log_set_callbacks log_new (some recording_cbs) { udata := [], calls := [] }

/-- A new log after `log_load_from_snapshot(INT_MAX, e)`: one live entry, at the
largest index an `int` can name. -/
def sample_snapshot_max : log_private_t Unit :=
  log_load_from_snapshot log_new INT_MAX (entry_with_id 7)

/-! ## Slot arithmetic -/

theorem REL_POS_nonneg {i s : Int} (hi : 0 ≤ i) : 0 ≤ REL_POS i s :=
  Int.tmod_nonneg s hi

theorem REL_POS_lt {i s : Int} (hs : 0 < s) : REL_POS i s < s :=
  Int.tmod_lt_of_pos i hs

/-- Two absolute indices less than `s` apart never share a slot. -/
theorem REL_POS_ne {a b s : Int} (ha : 0 ≤ a) (hab : a < b) (hbs : b - a < s) :
    REL_POS a s ≠ REL_POS b s := by
  have hs : 0 ≤ s := by omega
  unfold REL_POS
  rw [Int.tmod_eq_emod ha hs, Int.tmod_eq_emod (by omega) hs]
  intro h
  have h2 : (b - a) % s = 0 := Int.emod_eq_emod_iff_emod_sub_eq_zero.mp h.symm
  have h3 : (b - a) % s = b - a := Int.emod_eq_of_lt (by omega) hbs
  omega

theorem REL_POS_eq_emod {i s : Int} (hi : 0 ≤ i) (hs : 0 ≤ s) : REL_POS i s = i % s :=
  Int.tmod_eq_emod hi hs

/-- Moving `j` slots on from `a` without reaching the end of the array. -/
theorem emod_add_small {a s j : Int} (hs : 0 < s) (hj : 0 ≤ j) (h : a % s + j < s) :
    (a + j) % s = a % s + j := by
  have h0 : 0 ≤ a % s := Int.emod_nonneg a (by omega)
  have e : a + j = (a % s + j) + s * (a / s) := by
    have := Int.emod_add_ediv a s
    omega
  rw [e, Int.add_mul_emod_self_left]
  exact Int.emod_eq_of_lt (by omega) h

/-- Moving `d` slots on from `a` past the end of the array, once. -/
theorem emod_add_wrap {a s d : Int} (h1 : s ≤ a % s + d)
    (h2 : a % s + d < 2 * s) : (a + d) % s = a % s + d - s := by
  have e : a + d = (a % s + d - s) + s * (a / s + 1) := by
    have := Int.emod_add_ediv a s
    have e2 : s * (a / s + 1) = s * (a / s) + s := by ring
    omega
  rw [e, Int.add_mul_emod_self_left]
  exact Int.emod_eq_of_lt (by omega) (by omega)

/-! ## Growing the array -/

/-- The copy loop started at `i` with enough iterations left: slots no live
index from `i` on maps to are left as they were, and every live index from `i`
on finds its entry under the doubled modulus. -/
theorem __ensurecapacity_copy_spec {σ : Type} (me : log_private_t σ) (n : Nat) :
    ∀ (i : Int) (temp : Int → raft_entry_t), 0 ≤ i → me.back - i ≤ n →
      me.back - i ≤ 2 * me.size →
      (∀ slot, (∀ j, i ≤ j → j < me.back → REL_POS j (2 * me.size) ≠ slot) →
        __ensurecapacity_copy me n i temp slot = temp slot) ∧
      (∀ j, i ≤ j → j < me.back →
        __ensurecapacity_copy me n i temp (REL_POS j (2 * me.size)) =
          me.entries (REL_POS j me.size)) := by
  induction n with
  | zero =>
    intro i temp _ hn _
    refine ⟨fun _ _ => rfl, fun j h1 h2 => ?_⟩
    simp at hn
    omega
  | succ n ih =>
    intro i temp hi hn hs
    by_cases hlt : i < me.back
    · have hstep : __ensurecapacity_copy me (n + 1) i temp =
          __ensurecapacity_copy me n (i + 1)
            (Function.update temp (REL_POS i (2 * me.size)) (me.entries (REL_POS i me.size))) := by
        simp [__ensurecapacity_copy, hlt]
      have hn2 : me.back - (i + 1) ≤ (n : Int) := by push_cast at hn; omega
      obtain ⟨iha, ihb⟩ := ih (i + 1)
        (Function.update temp (REL_POS i (2 * me.size)) (me.entries (REL_POS i me.size)))
        (by omega) hn2 (by omega)
      rw [hstep]
      refine ⟨fun slot hslot => ?_, fun j h1 h2 => ?_⟩
      · rw [iha slot (fun j h1 h2 => hslot j (by omega) h2)]
        exact Function.update_noteq (hslot i (le_refl i) hlt).symm _ _
      · by_cases hji : j = i
        · subst hji
          rw [iha _ (fun k h1 h2 => (REL_POS_ne hi (by omega) (by omega)).symm)]
          exact Function.update_same _ _ _
        · exact ihb j (by omega) h2
    · have hstep : __ensurecapacity_copy me (n + 1) i temp = temp := by
        simp [__ensurecapacity_copy, hlt]
      rw [hstep]
      exact ⟨fun _ _ => rfl, fun j h1 h2 => by omega⟩

/-- One doubling keeps the cursors and re-places every live entry under the new
modulus. -/
theorem __ensurecapacity_grow_spec {σ : Type} (me : log_private_t σ) (hf : 0 ≤ me.front)
    (hs : me.back - me.front ≤ 2 * me.size) :
    (__ensurecapacity_grow me).size = me.size * 2 ∧
    (__ensurecapacity_grow me).front = me.front ∧
    (__ensurecapacity_grow me).back = me.back ∧
    (__ensurecapacity_grow me).count = me.count ∧
    (__ensurecapacity_grow me).cb = me.cb ∧
    (__ensurecapacity_grow me).raft = me.raft ∧
    ∀ j, me.front ≤ j → j < me.back →
      (__ensurecapacity_grow me).entries (REL_POS j (__ensurecapacity_grow me).size) =
        me.entries (REL_POS j me.size) := by
  refine ⟨rfl, rfl, rfl, rfl, rfl, rfl, fun j h1 h2 => ?_⟩
  have hn : me.back - me.front ≤ ((me.back - me.front).toNat : Int) := Int.self_le_toNat _
  have h := (__ensurecapacity_copy_spec me (me.back - me.front).toNat me.front
    (fun _ => raft_entry_t.zero) hf hn hs).2 j h1 h2
  have hsz : (__ensurecapacity_grow me).size = 2 * me.size := by
    show me.size * 2 = 2 * me.size
    omega
  rw [hsz]
  exact h

/-- The `while` loop of `__ensurecapacity`, given fuel for the shortfall, returns:
the size is the first of `size, 2*size, 4*size, ...` that holds `count + k`
entries, the cursors, callbacks and server are untouched, and every live entry
is found under the new modulus. -/
theorem __ensurecapacity_loop_spec {σ : Type} (fuel : Nat) :
    ∀ (me : log_private_t σ) (k : Int), log_wf me → me.count + k - me.size ≤ fuel →
      ∃ (r : log_private_t σ) (d : Nat), __ensurecapacity_loop fuel me k = some r ∧
        r.size = me.size * 2 ^ d ∧ me.count + k ≤ r.size ∧
        (∀ d', d' < d → me.size * 2 ^ d' < me.count + k) ∧
        r.front = me.front ∧ r.back = me.back ∧ r.count = me.count ∧
        r.cb = me.cb ∧ r.raft = me.raft ∧
        ∀ j, me.front ≤ j → j < me.back →
          r.entries (REL_POS j r.size) = me.entries (REL_POS j me.size) := by
  induction fuel with
  | zero =>
    intro me k _ hfuel
    have hc : ¬ me.size < me.count + k := by simp at hfuel; omega
    refine ⟨me, 0, by simp [__ensurecapacity_loop, hc], by simp, by omega, ?_, rfl, rfl, rfl,
      rfl, rfl, fun _ _ _ => rfl⟩
    intro d' hd'
    omega
  | succ fuel ih =>
    intro me k hwf hfuel
    obtain ⟨⟨hf, hfb, hcnt, hsz⟩, hpos⟩ := hwf
    by_cases hc : me.size < me.count + k
    · obtain ⟨g1, g2, g3, g4, g5, g6, g7⟩ :=
        __ensurecapacity_grow_spec me hf (by omega)
      have hwfg : log_wf (__ensurecapacity_grow me) := by
        refine ⟨⟨?_, ?_, ?_, ?_⟩, ?_⟩ <;> simp only [g1, g2, g3, g4] <;> omega
      have hfuelg : (__ensurecapacity_grow me).count + k - (__ensurecapacity_grow me).size
          ≤ (fuel : Int) := by
        rw [g1, g4]
        push_cast at hfuel
        omega
      obtain ⟨r, d, h1, h2, h3, h4, h5, h6, h7, h8, h9, h10⟩ :=
        ih (__ensurecapacity_grow me) k hwfg hfuelg
      refine ⟨r, d + 1, by simp [__ensurecapacity_loop, hc, h1], ?_, by rw [g4] at h3; exact h3,
        ?_, by rw [h5, g2], by rw [h6, g3], by rw [h7, g4], by rw [h8, g5], by rw [h9, g6], ?_⟩
      · rw [h2, g1, pow_succ]
        ring
      · intro d' hd'
        cases d' with
        | zero => simpa using hc
        | succ m =>
          have := h4 m (by omega)
          rw [g1, g4] at this
          rw [pow_succ]
          have e : me.size * (2 ^ m * 2) = me.size * 2 * 2 ^ m := by ring
          rw [e]
          exact this
      · intro j hj1 hj2
        rw [h10 j (by rw [g2]; exact hj1) (by rw [g3]; exact hj2)]
        exact g7 j hj1 hj2
    · refine ⟨me, 0, by simp [__ensurecapacity_loop, hc], by simp, by omega, ?_, rfl, rfl, rfl,
        rfl, rfl, fun _ _ _ => rfl⟩
      intro d' hd'
      omega

/-- More fuel never changes what the growth loop returns. -/
theorem __ensurecapacity_loop_fuel {σ : Type} (fuel : Nat) :
    ∀ (me r : log_private_t σ) (k : Int) (extra : Nat),
      __ensurecapacity_loop fuel me k = some r →
      __ensurecapacity_loop (fuel + extra) me k = some r := by
  induction fuel with
  | zero =>
    intro me r k extra h
    by_cases hc : me.size < me.count + k
    · simp [__ensurecapacity_loop, hc] at h
    · cases extra with
      | zero => exact h
      | succ e =>
        simp only [__ensurecapacity_loop, hc, if_false] at h
        simp [__ensurecapacity_loop, hc, h]
  | succ fuel ih =>
    intro me r k extra h
    have e : fuel + 1 + extra = (fuel + extra) + 1 := by omega
    rw [e]
    by_cases hc : me.size < me.count + k
    · simp only [__ensurecapacity_loop, hc, if_true] at h ⊢
      exact ih _ _ _ _ h
    · simp only [__ensurecapacity_loop, hc, if_false] at h ⊢
      exact h

/-- With no slot at all (`size ≤ 0`) and something to hold, the growth loop never
finishes: doubling does not help. -/
theorem __ensurecapacity_loop_diverges {σ : Type} (fuel : Nat) :
    ∀ (me : log_private_t σ) (k : Int), me.size ≤ 0 → me.size < me.count + k →
      __ensurecapacity_loop fuel me k = none := by
  induction fuel with
  | zero =>
    intro me k _ hc
    simp [__ensurecapacity_loop, hc]
  | succ fuel ih =>
    intro me k hs hc
    simp only [__ensurecapacity_loop, hc, if_true]
    apply ih
    · show me.size * 2 ≤ 0
      omega
    · show me.size * 2 < me.count + k
      omega

/-- With at least one slot, the growth loop finishes within the fuel that
`__ensurecapacity` supplies, whatever else the log holds. -/
theorem __ensurecapacity_loop_returns {σ : Type} (fuel : Nat) :
    ∀ (me : log_private_t σ) (k : Int), 1 ≤ me.size → me.count + k - me.size ≤ fuel →
      ∃ r : log_private_t σ, __ensurecapacity_loop fuel me k = some r := by
  induction fuel with
  | zero =>
    intro me k _ hfuel
    have hc : ¬ me.size < me.count + k := by simp at hfuel; omega
    exact ⟨me, by simp [__ensurecapacity_loop, hc]⟩
  | succ fuel ih =>
    intro me k hpos hfuel
    by_cases hc : me.size < me.count + k
    · have hs : (__ensurecapacity_grow me).size = me.size * 2 := rfl
      have hcnt : (__ensurecapacity_grow me).count = me.count := rfl
      obtain ⟨r, hr⟩ := ih (__ensurecapacity_grow me) k (by rw [hs]; omega)
        (by rw [hs, hcnt]; push_cast at hfuel; omega)
      exact ⟨r, by simp [__ensurecapacity_loop, hc, hr]⟩
    · exact ⟨me, by simp [__ensurecapacity_loop, hc]⟩

/-- The function `__ensurecapacity` fails to return exactly when the log has no
slot and something to hold, which is when its loop finishes for no fuel. -/
theorem __ensurecapacity_none_iff {σ : Type} (me : log_private_t σ) (k : Int) :
    __ensurecapacity me k = none ↔ (me.size ≤ 0 ∧ me.size < me.count + k) := by
  constructor
  · intro h
    by_cases hc : me.count + k ≤ me.size
    · simp [__ensurecapacity, hc] at h
    · by_cases hpos : 1 ≤ me.size
      · obtain ⟨r, hr⟩ := __ensurecapacity_loop_returns (me.count + k - me.size).toNat me k
          hpos (Int.self_le_toNat _)
        simp [__ensurecapacity, hc, hr] at h
      · exact ⟨by omega, by omega⟩
  · intro ⟨h1, h2⟩
    have hc : ¬ me.count + k ≤ me.size := by omega
    simp only [__ensurecapacity, hc, if_false]
    exact __ensurecapacity_loop_diverges _ me k h1 h2

/-- The function `__ensurecapacity` returns on every well-formed log, with the
size the first of `size, 2*size, 4*size, ...` that holds `count + k` entries. -/
theorem __ensurecapacity_spec {σ : Type} (me : log_private_t σ) (k : Int) (hwf : log_wf me) :
    ∃ (r : log_private_t σ) (d : Nat), __ensurecapacity me k = some r ∧
      r.size = me.size * 2 ^ d ∧ me.count + k ≤ r.size ∧
      (∀ d', d' < d → me.size * 2 ^ d' < me.count + k) ∧
      r.front = me.front ∧ r.back = me.back ∧ r.count = me.count ∧
      r.cb = me.cb ∧ r.raft = me.raft ∧
      ∀ j, me.front ≤ j → j < me.back →
        r.entries (REL_POS j r.size) = me.entries (REL_POS j me.size) := by
  by_cases hc : me.count + k ≤ me.size
  · refine ⟨me, 0, by simp [__ensurecapacity, hc], by simp, hc, ?_, rfl, rfl, rfl,
      rfl, rfl, fun _ _ _ => rfl⟩
    intro d' hd'
    omega
  · have h := __ensurecapacity_loop_spec (me.count + k - me.size).toNat me k hwf
      (Int.self_le_toNat _)
    simpa [__ensurecapacity, hc] using h

/-! ## Reading by index -/

theorem log_get_at_idx_live {σ : Type} (me : log_private_t σ) (i : Int) (hf : 0 ≤ me.front)
    (h1 : me.front + 1 ≤ i) (h2 : i ≤ me.back) :
    log_get_at_idx me i = get_result.found (me.entries (REL_POS (i - 1) me.size)) := by
  have a : 0 ≤ i - 1 := by omega
  have b : ¬ (i - 1 < me.front ∨ me.back ≤ i - 1) := by omega
  simp [log_get_at_idx, __get_ety, a, b]

theorem log_get_at_idx_null {σ : Type} (me : log_private_t σ) (i : Int) (h0 : 1 ≤ i)
    (h : i ≤ me.front ∨ me.back < i) : log_get_at_idx me i = get_result.null := by
  have a : 0 ≤ i - 1 := by omega
  have b : i - 1 < me.front ∨ me.back ≤ i - 1 := by omega
  simp [log_get_at_idx, a, b]

theorem log_get_at_idx_assert {σ : Type} (me : log_private_t σ) (i : Int) (h0 : i < 1) :
    log_get_at_idx me i = get_result.assert_failed := by
  have a : ¬ (0 ≤ i - 1) := by omega
  simp [log_get_at_idx, a]

/-! ## Appending -/

/-- The status `log_append_entry` returns when it is not aborted: the callback's
status, or 0 when no callback is registered. -/
theorem log_append_entry_body_added {σ : Type} (S : Int) (g : log_private_t σ)
    (ety : raft_entry_t)
    (hno : ∀ f, offer_cb g = some f → (f g.raft.udata ety g.back).2 ≠ S) :
    (log_append_entry_body S g ety).1 = offer_status g ety g.back ∧
      (log_append_entry_body S g ety).2.size = g.size ∧
      (log_append_entry_body S g ety).2.front = g.front ∧
      (log_append_entry_body S g ety).2.back = g.back + 1 ∧
      (log_append_entry_body S g ety).2.count = g.count + 1 ∧
      (log_append_entry_body S g ety).2.cb = g.cb ∧
      (log_append_entry_body S g ety).2.entries =
        Function.update g.entries (REL_POS g.back g.size) ety := by
  unfold log_append_entry_body offer_status
  cases hcb : offer_cb g with
  | none => simp [__get_ety]
  | some f =>
    have hne := hno f hcb
    simp [__get_ety, call_cb, raft_get_udata, hne]

/-- An aborted append: the status is the shutdown signal and only the server has
changed. -/
theorem log_append_entry_body_aborted {σ : Type} (S : Int) (g : log_private_t σ)
    (ety : raft_entry_t) (f : σ → raft_entry_t → Int → σ × Int) (hcb : offer_cb g = some f)
    (hS : (f g.raft.udata ety g.back).2 = S) :
    (log_append_entry_body S g ety).1 = S ∧
      (log_append_entry_body S g ety).2.size = g.size ∧
      (log_append_entry_body S g ety).2.front = g.front ∧
      (log_append_entry_body S g ety).2.back = g.back ∧
      (log_append_entry_body S g ety).2.count = g.count ∧
      (log_append_entry_body S g ety).2.cb = g.cb ∧
      (log_append_entry_body S g ety).2.entries = g.entries := by
  unfold log_append_entry_body
  simp [hcb, call_cb, raft_get_udata, hS]

theorem offer_cb_congr {σ : Type} (a b : log_private_t σ) (h : a.cb = b.cb) :
    offer_cb a = offer_cb b := by
  unfold offer_cb
  rw [h]

/-- An append that is not aborted, on a well-formed log. -/
theorem log_append_entry_added {σ : Type} (S : Int) (me : log_private_t σ)
    (ety : raft_entry_t) (hwf : log_wf me)
    (hno : ∀ f, offer_cb me = some f → (f me.raft.udata ety me.back).2 ≠ S) :
    ∃ r : Int × log_private_t σ, log_append_entry S me ety = some r ∧
      r.1 = offer_status me ety me.back ∧
      log_wf r.2 ∧
      (me.count < me.size → r.2.size = me.size) ∧
      (me.count = me.size → r.2.size = me.size * 2) ∧
      r.2.front = me.front ∧ r.2.back = me.back + 1 ∧ r.2.count = me.count + 1 ∧
      r.2.cb = me.cb ∧
      r.2.entries (REL_POS me.back r.2.size) = ety ∧
      ∀ j, me.front ≤ j → j < me.back →
        r.2.entries (REL_POS j r.2.size) = me.entries (REL_POS j me.size) := by
  obtain ⟨g, d, hg, g1, g2, g3, g4, g5, g6, g7, g8, g9⟩ := __ensurecapacity_spec me 1 hwf
  obtain ⟨⟨hf, hfb, hcnt, hsz⟩, hpos⟩ := hwf
  have hcbg : offer_cb g = offer_cb me := offer_cb_congr g me g7
  have hno2 : ∀ f, offer_cb g = some f → (f g.raft.udata ety g.back).2 ≠ S := by
    intro f hf2
    rw [g8, g5]
    exact hno f (by rw [← hcbg]; exact hf2)
  obtain ⟨b1, b2, b3, b4, b5, b6, b7⟩ := log_append_entry_body_added S g ety hno2
  have hgpos : 1 ≤ g.size := by omega
  refine ⟨log_append_entry_body S g ety, by simp [log_append_entry, hg], ?_, ?_, ?_, ?_,
    by rw [b3, g4], by rw [b4, g5], by rw [b5, g6], by rw [b6, g7], ?_, ?_⟩
  · rw [b1]
    unfold offer_status
    rw [hcbg, g8, g5]
  · refine ⟨⟨?_, ?_, ?_, ?_⟩, ?_⟩ <;> simp only [b2, b3, b4, b5] <;> omega
  · intro hlt
    rw [b2, g1]
    cases d with
    | zero => simp
    | succ m =>
      have := g3 0 (by omega)
      simp at this
      omega
  · intro heq
    rw [b2, g1]
    cases d with
    | zero =>
      simp at g1
      omega
    | succ m =>
      cases m with
      | zero => simp
      | succ m2 =>
        have := g3 1 (by omega)
        simp at this
        omega
  · rw [b7, b2, g5]
    exact Function.update_same _ _ _
  · intro j hj1 hj2
    rw [b7, b2, Function.update_noteq, g9 j hj1 hj2]
    exact REL_POS_ne (by omega) (by omega) (by omega)

theorem offer_cb_none {σ : Type} (me : log_private_t σ) (h : me.cb = none) :
    offer_cb me = none := by
  unfold offer_cb
  rw [h]

/-- Appending a list to a well-formed log without callbacks: every call returns
0, the cursors advance by the length, old live entries stay, and the new entries
sit in order behind them. -/
theorem append_all_spec {σ : Type} (S : Int) (es : List raft_entry_t) :
    ∀ (me : log_private_t σ), log_wf me → me.cb = none →
      ∃ (rs : List Int) (r : log_private_t σ), append_all S me es = some (rs, r) ∧
        (∀ x ∈ rs, x = 0) ∧ rs.length = es.length ∧ log_wf r ∧ r.cb = none ∧
        r.front = me.front ∧ r.back = me.back + es.length ∧
        r.count = me.count + es.length ∧
        (∀ j, me.front ≤ j → j < me.back →
          r.entries (REL_POS j r.size) = me.entries (REL_POS j me.size)) ∧
        (∀ (i : Nat) (h : i < es.length),
          r.entries (REL_POS (me.back + i) r.size) = es[i]) := by
  induction es with
  | nil =>
    intro me hwf hcb
    exact ⟨[], me, rfl, by simp, rfl, hwf, hcb, rfl, by simp, by simp,
      fun _ _ _ => rfl, fun i h => absurd h (by simp)⟩
  | cons e es ih =>
    intro me hwf hcb
    have hnone := offer_cb_none me hcb
    obtain ⟨r1, a0, a1, a2, _, _, a5, a6, a7, a8, a9, a10⟩ :=
      log_append_entry_added S me e hwf (by intro f hf; rw [hnone] at hf; cases hf)
    obtain ⟨rs, r, c0, c1, c2, c3, c4, c5, c6, c7, c8, c9⟩ := ih r1.2 a2 (by rw [a8, hcb])
    have hf0 : 0 ≤ me.front := hwf.1.1
    have hfb : me.front ≤ me.back := hwf.1.2.1
    refine ⟨r1.1 :: rs, r, by simp [append_all, a0, c0], ?_, by simp [c2], c3, c4,
      by rw [c5, a5], ?_, ?_, ?_, ?_⟩
    · intro x hx
      rcases List.mem_cons.mp hx with hx | hx
      · rw [hx, a1]
        unfold offer_status
        rw [hnone]
      · exact c1 x hx
    · rw [c6, a6]
      simp only [List.length_cons]
      push_cast
      omega
    · rw [c7, a7]
      simp only [List.length_cons]
      push_cast
      omega
    · intro j hj1 hj2
      rw [c8 j (by rw [a5]; exact hj1) (by rw [a6]; omega)]
      exact a10 j hj1 hj2
    · intro i hi
      cases i with
      | zero =>
        simp only [Nat.cast_zero, add_zero, List.getElem_cons_zero]
        rw [c8 me.back (by rw [a5]; exact hfb) (by rw [a6]; omega)]
        exact a9
      | succ k =>
        have hk : k < es.length := by simpa using hi
        have := c9 k hk
        rw [a6] at this
        simp only [List.getElem_cons_succ]
        rw [← this]
        congr 2
        push_cast
        omega

theorem log_new_wf {σ : Type} [Inhabited σ] : log_wf (log_new : log_private_t σ) := by
  refine ⟨⟨?_, ?_, ?_, ?_⟩, ?_⟩ <;> simp [log_new, log_clear, INITIAL_CAPACITY]

/-! ## Truncating -/

theorem log_delete_step_spec {σ : Type} (me : log_private_t σ) :
    (log_delete_step me).back = me.back - 1 ∧ (log_delete_step me).count = me.count - 1 ∧
      (log_delete_step me).front = me.front ∧ (log_delete_step me).size = me.size ∧
      (log_delete_step me).entries = me.entries ∧ (log_delete_step me).cb = me.cb := by
  unfold log_delete_step
  cases pop_cb me <;> simp

/-- The `while` loop of `log_delete`, given fuel for `back - idx + 1` steps,
returns with `back = min back (idx - 1)`; `count` has dropped by as much as
`back`, and nothing else in the log has changed. -/
theorem log_delete_loop_spec {σ : Type} (fuel : Nat) :
    ∀ (me : log_private_t σ) (idx : Int), me.back - idx + 1 ≤ fuel →
      ∃ r : log_private_t σ, log_delete_loop fuel me idx = some r ∧
        r.back = min me.back (idx - 1) ∧ r.count = me.count - (me.back - r.back) ∧
        r.front = me.front ∧ r.size = me.size ∧ r.entries = me.entries ∧ r.cb = me.cb := by
  induction fuel with
  | zero =>
    intro me idx hfuel
    have hc : ¬ idx ≤ me.back := by simp at hfuel; omega
    refine ⟨me, by simp [log_delete_loop, hc], ?_, by omega, rfl, rfl, rfl, rfl⟩
    rw [min_def]
    split <;> omega
  | succ fuel ih =>
    intro me idx hfuel
    by_cases hc : idx ≤ me.back
    · obtain ⟨s1, s2, s3, s4, s5, s6⟩ := log_delete_step_spec me
      obtain ⟨r, h0, h1, h2, h3, h4, h5, h6⟩ := ih (log_delete_step me) idx
        (by rw [s1]; push_cast at hfuel; omega)
      have hb : r.back = min me.back (idx - 1) := by
        rw [h1, s1, min_def, min_def]
        split <;> split <;> omega
      refine ⟨r, by simp [log_delete_loop, hc, h0], hb, ?_, by rw [h3, s3], by rw [h4, s4],
        by rw [h5, s5], by rw [h6, s6]⟩
      rw [h2, s1, s2]
      omega
    · refine ⟨me, by simp [log_delete_loop, hc], ?_, by omega, rfl, rfl, rfl, rfl⟩
      rw [min_def]
      split <;> omega

/-- More fuel never changes what the truncation loop returns. -/
theorem log_delete_loop_fuel {σ : Type} (fuel : Nat) :
    ∀ (me r : log_private_t σ) (idx : Int) (extra : Nat),
      log_delete_loop fuel me idx = some r →
      log_delete_loop (fuel + extra) me idx = some r := by
  induction fuel with
  | zero =>
    intro me r idx extra h
    by_cases hc : idx ≤ me.back
    · simp [log_delete_loop, hc] at h
    · cases extra with
      | zero => exact h
      | succ e =>
        simp only [log_delete_loop, hc, if_false] at h
        simp [log_delete_loop, hc, h]
  | succ fuel ih =>
    intro me r idx extra h
    have e : fuel + 1 + extra = (fuel + extra) + 1 := by omega
    rw [e]
    by_cases hc : idx ≤ me.back
    · simp only [log_delete_loop, hc, if_true] at h ⊢
      exact ih _ _ _ _ h
    · simp only [log_delete_loop, hc, if_false] at h ⊢
      exact h

/-- The function `log_delete` always returns. -/
theorem log_delete_spec {σ : Type} (me : log_private_t σ) (idx : Int) :
    ∃ r : log_private_t σ, log_delete me idx = some r ∧
      r.back = min me.back (idx - 1) ∧ r.count = me.count - (me.back - r.back) ∧
      r.front = me.front ∧ r.size = me.size ∧ r.entries = me.entries ∧ r.cb = me.cb :=
  log_delete_loop_spec (me.back - idx + 1).toNat me idx (Int.self_le_toNat _)

/-- The truncation loop runs `log_delete_step` exactly `back - idx + 1` times
(not at all when that is not positive): with that much fuel or more it returns
the state after that many steps, with less it runs out. -/
theorem log_delete_loop_exact {σ : Type} (fuel : Nat) :
    ∀ (me : log_private_t σ) (idx : Int),
      log_delete_loop fuel me idx =
        if me.back - idx + 1 ≤ (fuel : Int) then
          some (Nat.iterate log_delete_step (me.back - idx + 1).toNat me)
        else none := by
  induction fuel with
  | zero =>
    intro me idx
    by_cases hc : idx ≤ me.back
    · have h : ¬ (me.back - idx + 1 ≤ ((0 : Nat) : Int)) := by simp; omega
      simp only [log_delete_loop, hc, if_true, h, if_false]
    · have h : me.back - idx + 1 ≤ ((0 : Nat) : Int) := by simp; omega
      have h0 : (me.back - idx + 1).toNat = 0 := by omega
      simp only [log_delete_loop, hc, if_false, h, if_true, h0, Function.iterate_zero, id_eq]
  | succ fuel ih =>
    intro me idx
    by_cases hc : idx ≤ me.back
    · have hb : (log_delete_step me).back = me.back - 1 := (log_delete_step_spec me).1
      have hn : (me.back - idx + 1).toNat = (me.back - 1 - idx + 1).toNat + 1 := by omega
      simp only [log_delete_loop, hc, if_true]
      rw [ih (log_delete_step me) idx, hb, hn, Function.iterate_succ_apply]
      by_cases hf : me.back - 1 - idx + 1 ≤ (fuel : Int)
      · have hf2 : me.back - idx + 1 ≤ ((fuel + 1 : Nat) : Int) := by push_cast; omega
        rw [if_pos hf, if_pos hf2]
      · have hf2 : ¬ me.back - idx + 1 ≤ ((fuel + 1 : Nat) : Int) := by push_cast; omega
        rw [if_neg hf, if_neg hf2]
    · have h : me.back - idx + 1 ≤ ((fuel + 1 : Nat) : Int) := by push_cast; omega
      have h0 : (me.back - idx + 1).toNat = 0 := by omega
      simp only [log_delete_loop, hc, if_false, h, if_true, h0, Function.iterate_zero, id_eq]

theorem log_get_at_idx_congr {σ : Type} (a b : log_private_t σ) (i : Int)
    (hf : a.front = b.front) (hb : a.back = b.back) (hs : a.size = b.size)
    (he : a.entries = b.entries) : log_get_at_idx a i = log_get_at_idx b i := by
  simp [log_get_at_idx, __get_ety, hf, hb, hs, he]

theorem log_poll_spec {σ : Type} (me : log_private_t σ) (hc : me.count ≠ 0) :
    (log_poll me).1 = some (me.entries (REL_POS me.front me.size)) ∧
      (log_poll me).2.front = me.front + 1 ∧ (log_poll me).2.count = me.count - 1 ∧
      (log_poll me).2.back = me.back ∧ (log_poll me).2.size = me.size ∧
      (log_poll me).2.entries = me.entries ∧ (log_poll me).2.cb = me.cb := by
  have h : ¬ (0 = log_count me) := fun h => hc h.symm
  unfold log_poll
  rw [if_neg h]
  cases poll_cb me <;> simp [__get_ety]

theorem log_offer_first_added {σ : Type} (S : Int) (me : log_private_t σ)
    (ety : raft_entry_t) (hfront : me.front ≠ 0)
    (hno : ∀ f, offer_cb me = some f → (f me.raft.udata ety (me.front - 1)).2 ≠ S) :
    (log_offer_first S me ety).1 = offer_status me ety (me.front - 1) ∧
      (log_offer_first S me ety).2.front = me.front - 1 ∧
      (log_offer_first S me ety).2.count = me.count + 1 ∧
      (log_offer_first S me ety).2.back = me.back ∧
      (log_offer_first S me ety).2.size = me.size ∧
      (log_offer_first S me ety).2.cb = me.cb ∧
      (log_offer_first S me ety).2.entries =
        Function.update me.entries (REL_POS (me.front - 1) me.size) ety := by
  have hcb : offer_cb { me with front := me.front - 1 } = offer_cb me := rfl
  unfold log_offer_first offer_status
  rw [if_neg hfront]
  simp only [hcb]
  cases h : offer_cb me with
  | none => simp [__get_ety]
  | some f =>
    have hne := hno f h
    simp [__get_ety, call_cb, raft_get_udata, hne]

/-- A prepend aborted by the shutdown signal: `front` has already moved. -/
theorem log_offer_first_aborted {σ : Type} (S : Int) (me : log_private_t σ)
    (ety : raft_entry_t) (hfront : me.front ≠ 0) (f : σ → raft_entry_t → Int → σ × Int)
    (hcb : offer_cb me = some f) (hS : (f me.raft.udata ety (me.front - 1)).2 = S) :
    (log_offer_first S me ety).1 = S ∧
      (log_offer_first S me ety).2.front = me.front - 1 ∧
      (log_offer_first S me ety).2.count = me.count ∧
      (log_offer_first S me ety).2.back = me.back ∧
      (log_offer_first S me ety).2.size = me.size ∧
      (log_offer_first S me ety).2.cb = me.cb ∧
      (log_offer_first S me ety).2.entries = me.entries := by
  have hcb2 : offer_cb { me with front := me.front - 1 } = offer_cb me := rfl
  unfold log_offer_first
  rw [if_neg hfront]
  simp only [hcb2, hcb]
  simp [call_cb, raft_get_udata, hS]

/-- An append aborted by the shutdown signal, on a well-formed log: the array may
have grown, the cursors have not moved and every live entry is where its index
says. -/
theorem log_append_entry_aborted {σ : Type} (S : Int) (me : log_private_t σ)
    (ety : raft_entry_t) (hwf : log_wf me) (f : σ → raft_entry_t → Int → σ × Int)
    (hcb : offer_cb me = some f) (hS : (f me.raft.udata ety me.back).2 = S) :
    ∃ r : Int × log_private_t σ, log_append_entry S me ety = some r ∧ r.1 = S ∧
      log_wf r.2 ∧ r.2.front = me.front ∧ r.2.back = me.back ∧ r.2.count = me.count ∧
      r.2.cb = me.cb ∧
      ∀ j, me.front ≤ j → j < me.back →
        r.2.entries (REL_POS j r.2.size) = me.entries (REL_POS j me.size) := by
  obtain ⟨g, d, hg, g1, g2, g3, g4, g5, g6, g7, g8, g9⟩ := __ensurecapacity_spec me 1 hwf
  obtain ⟨⟨hf, hfb, hcnt, hsz⟩, hpos⟩ := hwf
  have hcbg : offer_cb g = some f := by rw [offer_cb_congr g me g7]; exact hcb
  obtain ⟨b1, b2, b3, b4, b5, b6, b7⟩ :=
    log_append_entry_body_aborted S g ety f hcbg (by rw [g8, g5]; exact hS)
  refine ⟨log_append_entry_body S g ety, by simp [log_append_entry, hg], b1, ?_,
    by rw [b3, g4], by rw [b4, g5], by rw [b5, g6], by rw [b6, g7], ?_⟩
  · refine ⟨⟨?_, ?_, ?_, ?_⟩, ?_⟩ <;> simp only [b2, b3, b4, b5] <;> omega
  · intro j hj1 hj2
    rw [b7, b2]
    exact g9 j hj1 hj2

/-! ## Calls made to the collaborators -/

theorem INT_MAX_eq : INT_MAX = 2147483647 := rfl

theorem INT_MIN_eq : INT_MIN = -2147483648 := rfl

theorem wrap_int_eq {x : Int} (h1 : INT_MIN ≤ x) (h2 : x ≤ INT_MAX) : wrap_int x = x := by
  have hM := INT_MAX_eq
  have hm := INT_MIN_eq
  unfold wrap_int
  omega

theorem wrap_int_range (x : Int) : INT_MIN ≤ wrap_int x ∧ wrap_int x ≤ INT_MAX := by
  have hM := INT_MAX_eq
  have hm := INT_MIN_eq
  unfold wrap_int
  omega

/-- The status returned by an append does not depend on the width of the
cursors. -/
theorem log_append_entry_body_int_fst {σ : Type} (S : Int) (g : log_private_t σ)
    (ety : raft_entry_t) :
    (log_append_entry_body_int S g ety).1 = (log_append_entry_body S g ety).1 := by
  unfold log_append_entry_body_int log_append_entry_body
  cases offer_cb g with
  | none => rfl
  | some f =>
    by_cases hS : (f g.raft.udata ety g.back).2 = S
    · simp [hS, call_cb, raft_get_udata]
    · simp [hS, call_cb, raft_get_udata]

/-- While the two increments stay in the range of `int`, the 32-bit append is the
append on unbounded cursors. -/
theorem log_append_entry_body_int_eq {σ : Type} (S : Int) (g : log_private_t σ)
    (ety : raft_entry_t) (hc : wrap_int (g.count + 1) = g.count + 1)
    (hb : wrap_int (g.back + 1) = g.back + 1) :
    log_append_entry_body_int S g ety = log_append_entry_body S g ety := by
  unfold log_append_entry_body_int log_append_entry_body
  simp only [hc, hb]

/-- An aborted append increments nothing. -/
theorem log_append_entry_body_int_aborted {σ : Type} (S : Int) (g : log_private_t σ)
    (ety : raft_entry_t) (f : σ → raft_entry_t → Int → σ × Int) (hcb : offer_cb g = some f)
    (hS : (f g.raft.udata ety g.back).2 = S) :
    log_append_entry_body_int S g ety = log_append_entry_body S g ety := by
  unfold log_append_entry_body_int log_append_entry_body
  simp [hcb, call_cb, raft_get_udata, hS]

/-- The 32-bit append against the append on unbounded cursors, on a well-formed
log: both return, with the same status, and with the same log when
`back < INT_MAX` or when the append is aborted. -/
theorem log_append_entry_int_rel {σ : Type} (S : Int) (me : log_private_t σ)
    (ety : raft_entry_t) (hwf : log_wf me) :
    ∃ r r' : Int × log_private_t σ,
      log_append_entry_int S me ety = some r ∧ log_append_entry S me ety = some r' ∧
      r.1 = r'.1 ∧ (me.back < INT_MAX → r = r') ∧
      ((∃ f, offer_cb me = some f ∧ (f me.raft.udata ety me.back).2 = S) → r = r') := by
  obtain ⟨g, d, hg, _, _, _, g4, g5, g6, g7, g8, _⟩ := __ensurecapacity_spec me 1 hwf
  obtain ⟨⟨hf, hfb, hcnt, hsz⟩, hpos⟩ := hwf
  refine ⟨log_append_entry_body_int S g ety, log_append_entry_body S g ety,
    by simp [log_append_entry_int, hg], by simp [log_append_entry, hg],
    log_append_entry_body_int_fst S g ety, ?_, ?_⟩
  · intro hback
    have hM := INT_MAX_eq
    have hm := INT_MIN_eq
    apply log_append_entry_body_int_eq
    · apply wrap_int_eq <;> rw [g6] <;> omega
    · apply wrap_int_eq <;> rw [g5] <;> omega
  · intro ⟨f, hcb, hS⟩
    exact log_append_entry_body_int_aborted S g ety f
      (by rw [offer_cb_congr g me g7]; exact hcb) (by rw [g8, g5]; exact hS)

theorem log_delete_step_int_back {σ : Type} (me : log_private_t σ) :
    (log_delete_step_int me).back = wrap_int (me.back - 1) := by
  unfold log_delete_step_int
  cases pop_cb me <;> rfl

/-- While `back - 1` and `count - 1` stay in the range of `int`, the 32-bit step
of the truncation loop is the step on unbounded cursors. -/
theorem log_delete_step_int_eq {σ : Type} (me : log_private_t σ)
    (hb : wrap_int (me.back - 1) = me.back - 1)
    (hc : wrap_int (me.count - 1) = me.count - 1) :
    log_delete_step_int me = log_delete_step me := by
  unfold log_delete_step_int log_delete_step
  cases pop_cb me <;> simp only [hb, hc]

/-- With `idx = INT_MIN` the guard `idx <= me->back` holds for every `int`, so
the 32-bit truncation loop finishes for no fuel. -/
theorem log_delete_loop_int_diverges {σ : Type} (fuel : Nat) :
    ∀ (me : log_private_t σ) (idx : Int), idx ≤ INT_MIN → INT_MIN ≤ me.back →
      log_delete_loop_int fuel me idx = none := by
  induction fuel with
  | zero =>
    intro me idx h1 h2
    have hc : idx ≤ me.back := le_trans h1 h2
    simp [log_delete_loop_int, hc]
  | succ fuel ih =>
    intro me idx h1 h2
    have hc : idx ≤ me.back := le_trans h1 h2
    simp only [log_delete_loop_int, hc, if_true]
    apply ih _ _ h1
    rw [log_delete_step_int_back]
    exact (wrap_int_range _).1

/-- For `idx > INT_MIN`, on cursors in the range of `int` and with `count` not
falling below `INT_MIN`, the 32-bit truncation loop is the loop on unbounded
cursors. -/
theorem log_delete_loop_int_eq {σ : Type} (fuel : Nat) :
    ∀ (me : log_private_t σ) (idx : Int), INT_MIN < idx → me.back ≤ INT_MAX →
      me.count ≤ INT_MAX → INT_MIN ≤ me.count - max 0 (me.back - idx + 1) →
      log_delete_loop_int fuel me idx = log_delete_loop fuel me idx := by
  induction fuel with
  | zero =>
    intro me idx _ _ _ _
    rfl
  | succ fuel ih =>
    intro me idx h1 h2 h3 h4
    by_cases hc : idx ≤ me.back
    · have hmax : max 0 (me.back - idx + 1) = me.back - idx + 1 := by
        rw [max_def]
        split <;> omega
      rw [hmax] at h4
      have hM := INT_MAX_eq
      have hm := INT_MIN_eq
      have hb : wrap_int (me.back - 1) = me.back - 1 := by
        apply wrap_int_eq <;> omega
      have hcn : wrap_int (me.count - 1) = me.count - 1 := by
        apply wrap_int_eq <;> omega
      obtain ⟨s1, s2, _⟩ := log_delete_step_spec me
      simp only [log_delete_loop_int, log_delete_loop, hc, if_true,
        log_delete_step_int_eq me hb hcn]
      apply ih _ _ h1
      · rw [s1]; omega
      · rw [s2]; omega
      · rw [s1, s2, max_def]
        split <;> omega
    · simp only [log_delete_loop_int, log_delete_loop, hc, if_false]

/-- As many 32-bit steps as stay in the range of `int` are the steps on unbounded
cursors. -/
theorem log_delete_iterate_int_eq {σ : Type} (n : Nat) :
    ∀ me : log_private_t σ, INT_MIN ≤ me.back - n → me.back ≤ INT_MAX →
      INT_MIN ≤ me.count - n → me.count ≤ INT_MAX →
      Nat.iterate log_delete_step_int n me = Nat.iterate log_delete_step n me := by
  induction n with
  | zero =>
    intro me _ _ _ _
    simp only [Function.iterate_zero, id_eq]
  | succ n ih =>
    intro me h1 h2 h3 h4
    have hM := INT_MAX_eq
    have hm := INT_MIN_eq
    have hb : wrap_int (me.back - 1) = me.back - 1 := by
      apply wrap_int_eq <;> omega
    have hcn : wrap_int (me.count - 1) = me.count - 1 := by
      apply wrap_int_eq <;> omega
    obtain ⟨s1, s2, _⟩ := log_delete_step_spec me
    rw [Function.iterate_succ_apply, Function.iterate_succ_apply,
      log_delete_step_int_eq me hb hcn]
    apply ih
    · rw [s1]; omega
    · rw [s1]; omega
    · rw [s2]; omega
    · rw [s2]; omega

/-- A 32-bit append that is not aborted, on a well-formed log with
`back < INT_MAX`. -/
theorem log_append_entry_int_added {σ : Type} (S : Int) (me : log_private_t σ)
    (ety : raft_entry_t) (hwf : log_wf me) (hback : me.back < INT_MAX)
    (hno : ∀ f, offer_cb me = some f → (f me.raft.udata ety me.back).2 ≠ S) :
    ∃ r : Int × log_private_t σ, log_append_entry_int S me ety = some r ∧
      r.1 = offer_status me ety me.back ∧
      log_wf r.2 ∧
      (me.count < me.size → r.2.size = me.size) ∧
      (me.count = me.size → r.2.size = me.size * 2) ∧
      r.2.front = me.front ∧ r.2.back = me.back + 1 ∧ r.2.count = me.count + 1 ∧
      r.2.cb = me.cb ∧
      r.2.entries (REL_POS me.back r.2.size) = ety ∧
      ∀ j, me.front ≤ j → j < me.back →
        r.2.entries (REL_POS j r.2.size) = me.entries (REL_POS j me.size) := by
  obtain ⟨r1, r2, e1, e2, _, e4, _⟩ := log_append_entry_int_rel S me ety hwf
  obtain ⟨r3, a0, rest⟩ := log_append_entry_added S me ety hwf hno
  have e : r3 = r1 := (Option.some.inj (a0.symm.trans e2)).trans (e4 hback).symm
  subst e
  exact ⟨r3, e1, rest⟩

/-- A 32-bit append aborted by the shutdown signal, on a well-formed log. -/
theorem log_append_entry_int_aborted {σ : Type} (S : Int) (me : log_private_t σ)
    (ety : raft_entry_t) (hwf : log_wf me) (f : σ → raft_entry_t → Int → σ × Int)
    (hcb : offer_cb me = some f) (hS : (f me.raft.udata ety me.back).2 = S) :
    ∃ r : Int × log_private_t σ, log_append_entry_int S me ety = some r ∧ r.1 = S ∧
      log_wf r.2 ∧ r.2.front = me.front ∧ r.2.back = me.back ∧ r.2.count = me.count ∧
      r.2.cb = me.cb ∧
      ∀ j, me.front ≤ j → j < me.back →
        r.2.entries (REL_POS j r.2.size) = me.entries (REL_POS j me.size) := by
  obtain ⟨r1, r2, e1, e2, _, _, e5⟩ := log_append_entry_int_rel S me ety hwf
  obtain ⟨r3, a0, rest⟩ := log_append_entry_aborted S me ety hwf f hcb hS
  have e : r3 = r1 := (Option.some.inj (a0.symm.trans e2)).trans (e5 ⟨f, hcb, hS⟩).symm
  subst e
  exact ⟨r3, e1, rest⟩

/-- The status a 32-bit append returns, on a well-formed log, whatever `back`
is. -/
theorem log_append_entry_int_status {σ : Type} (S : Int) (me : log_private_t σ)
    (ety : raft_entry_t) (hwf : log_wf me)
    (hno : ∀ f, offer_cb me = some f → (f me.raft.udata ety me.back).2 ≠ S) :
    ∃ r : Int × log_private_t σ, log_append_entry_int S me ety = some r ∧
      r.1 = offer_status me ety me.back := by
  obtain ⟨r1, r2, e1, e2, e3, _, _⟩ := log_append_entry_int_rel S me ety hwf
  obtain ⟨r3, a0, a1, _⟩ := log_append_entry_added S me ety hwf hno
  have e : r3 = r2 := Option.some.inj (a0.symm.trans e2)
  subst e
  exact ⟨r1, e1, e3.trans a1⟩

/-! ## Reachable states -/

/-- C1: appending any finite sequence of entries to a log made by `log_new`, with
no persistence callback registered, returns 0 every time; afterwards `log_count`
and `log_get_current_idx` are the number of entries, `log_get_at_idx` returns
the i-th appended entry at index i, and index N+1 is not found. -/
theorem log_new_append_all_get_at_idx {σ : Type} [Inhabited σ] (S : Int)
    (es : List raft_entry_t) :
    ∃ (rs : List Int) (r : log_private_t σ),
      append_all S (log_new : log_private_t σ) es = some (rs, r) ∧
      rs.length = es.length ∧ (∀ x ∈ rs, x = 0) ∧
      log_count r = es.length ∧ log_get_current_idx r = es.length ∧
      (∀ (i : Nat) (h : i < es.length),
        log_get_at_idx r ((i : Int) + 1) = get_result.found es[i]) ∧
      log_get_at_idx r ((es.length : Int) + 1) = get_result.null := by
  obtain ⟨rs, r, c0, c1, c2, c3, _, c5, c6, c7, _, c9⟩ :=
    append_all_spec S es (log_new : log_private_t σ) log_new_wf rfl
  have hf : r.front = 0 := c5
  have hb : r.back = es.length := by rw [c6]; simp [log_new, log_clear]
  have hc : r.count = es.length := by rw [c7]; simp [log_new, log_clear]
  refine ⟨rs, r, c0, c2, c1, hc, hb, ?_, ?_⟩
  · intro i hi
    rw [log_get_at_idx_live r _ (by omega) (by omega) (by omega)]
    have := c9 i hi
    simp only [log_new, log_clear, zero_add] at this
    simp only [add_sub_cancel_right]
    rw [this]
  · exact log_get_at_idx_null r _ (by omega) (Or.inr (by omega))

/-- C2: after appending e1..eN to a new log and calling `log_delete(k)` with
1 ≤ k ≤ N, `log_count` and `log_get_current_idx` are k-1, every index j ≥ k is
not found, and every index j < k still returns e_j. -/
theorem log_new_append_all_delete {σ : Type} [Inhabited σ] (S : Int)
    (es : List raft_entry_t) (k : Int) (hk1 : 1 ≤ k) (hkN : k ≤ es.length) :
    ∃ (rs : List Int) (r d : log_private_t σ),
      append_all S (log_new : log_private_t σ) es = some (rs, r) ∧
      log_delete r k = some d ∧
      log_count d = k - 1 ∧ log_get_current_idx d = k - 1 ∧
      (∀ j : Int, k ≤ j → log_get_at_idx d j = get_result.null) ∧
      (∀ (i : Nat) (h : i < es.length), (i : Int) + 1 < k →
        log_get_at_idx d ((i : Int) + 1) = get_result.found es[i]) := by
  obtain ⟨rs, r, c0, _, _, _, _, c5, c6, c7, _, c9⟩ :=
    append_all_spec S es (log_new : log_private_t σ) log_new_wf rfl
  have hf : r.front = 0 := c5
  have hb : r.back = es.length := by rw [c6]; simp [log_new, log_clear]
  have hc : r.count = es.length := by rw [c7]; simp [log_new, log_clear]
  obtain ⟨d, d0, d1, d2, d3, d4, d5, _⟩ := log_delete_spec r k
  have hdb : d.back = k - 1 := by
    rw [d1, hb, min_def]
    split <;> omega
  refine ⟨rs, r, d, c0, d0, ?_, hdb, ?_, ?_⟩
  · show d.count = k - 1
    rw [d2, hc, hb, hdb]
    omega
  · intro j hj
    exact log_get_at_idx_null d j (by omega) (Or.inr (by omega))
  · intro i hi hik
    rw [log_get_at_idx_live d _ (by omega) (by omega) (by omega), d5, d4]
    have := c9 i hi
    simp only [log_new, log_clear, zero_add] at this
    simp only [add_sub_cancel_right]
    rw [this]

/-- Witness for C2: three entries and `log_delete(2)`. -/
theorem log_new_append_all_delete_witness :
    ∃ (rs : List Int) (r d : log_private_t Unit),
      append_all (-4) (log_new : log_private_t Unit)
        [entry_with_id 1, entry_with_id 2, entry_with_id 3] = some (rs, r) ∧
      log_delete r 2 = some d ∧
      log_count d = 2 - 1 ∧ log_get_current_idx d = 2 - 1 ∧
      (∀ j : Int, 2 ≤ j → log_get_at_idx d j = get_result.null) ∧
      (∀ (i : Nat) (h : i < [entry_with_id 1, entry_with_id 2, entry_with_id 3].length),
        (i : Int) + 1 < 2 →
        log_get_at_idx d ((i : Int) + 1) =
          get_result.found [entry_with_id 1, entry_with_id 2, entry_with_id 3][i]) :=
  log_new_append_all_delete (-4) [entry_with_id 1, entry_with_id 2, entry_with_id 3] 2
    (by decide) (by decide)

/-- C3: on a log satisfying the invariant, `log_poll` of an empty log returns
NULL and changes nothing; otherwise it returns the entry `log_get_at_idx` gave
for index front+1, moves `front` up by one and `count` down by one, leaves
`back` and `size` alone, makes index front+1 not found, and leaves the answer of
`log_get_at_idx` at every other index as it was. -/
theorem log_poll_oldest {σ : Type} (me : log_private_t σ) (hinv : log_inv me) :
    (me.count = 0 → log_poll me = (none, me)) ∧
    (me.count ≠ 0 →
      ∃ e : raft_entry_t, (log_poll me).1 = some e ∧
        log_get_at_idx me (me.front + 1) = get_result.found e ∧
        (log_poll me).2.front = me.front + 1 ∧
        log_count (log_poll me).2 = log_count me - 1 ∧
        log_get_current_idx (log_poll me).2 = log_get_current_idx me ∧
        (log_poll me).2.size = me.size ∧
        log_get_at_idx (log_poll me).2 (me.front + 1) = get_result.null ∧
        ∀ i : Int, i ≠ me.front + 1 →
          log_get_at_idx (log_poll me).2 i = log_get_at_idx me i) := by
  obtain ⟨hf, hfb, hcnt, hsz⟩ := hinv
  constructor
  · intro h0
    simp [log_poll, log_count, h0]
  · intro hne
    obtain ⟨p1, p2, p3, p4, p5, p6, _⟩ := log_poll_spec me hne
    refine ⟨_, p1, ?_, p2, p3, p4, p5, ?_, ?_⟩
    · rw [log_get_at_idx_live me _ hf (by omega) (by omega)]
      simp
    · exact log_get_at_idx_null _ _ (by omega) (Or.inl (by omega))
    · intro i hi
      by_cases h1 : i < 1
      · rw [log_get_at_idx_assert _ i h1, log_get_at_idx_assert _ i h1]
      · by_cases h2 : i ≤ me.front ∨ me.back < i
        · rw [log_get_at_idx_null me i (by omega) h2,
            log_get_at_idx_null _ i (by omega) (by rw [p2, p4]; omega)]
        · rw [log_get_at_idx_live me i hf (by omega) (by omega),
            log_get_at_idx_live _ i (by omega) (by rw [p2]; omega) (by rw [p4]; omega),
            p5, p6]

/-- Witness for C3: polling the wrapped sample log. -/
theorem log_poll_oldest_witness :
    log_inv sample_wrapped ∧
    ((sample_wrapped.count = 0 → log_poll sample_wrapped = (none, sample_wrapped)) ∧
    (sample_wrapped.count ≠ 0 →
      ∃ e : raft_entry_t, (log_poll sample_wrapped).1 = some e ∧
        log_get_at_idx sample_wrapped (sample_wrapped.front + 1) = get_result.found e ∧
        (log_poll sample_wrapped).2.front = sample_wrapped.front + 1 ∧
        log_count (log_poll sample_wrapped).2 = log_count sample_wrapped - 1 ∧
        log_get_current_idx (log_poll sample_wrapped).2 =
          log_get_current_idx sample_wrapped ∧
        (log_poll sample_wrapped).2.size = sample_wrapped.size ∧
        log_get_at_idx (log_poll sample_wrapped).2 (sample_wrapped.front + 1) =
          get_result.null ∧
        ∀ i : Int, i ≠ sample_wrapped.front + 1 →
          log_get_at_idx (log_poll sample_wrapped).2 i = log_get_at_idx sample_wrapped i)) :=
  ⟨by simp [log_inv, sample_wrapped],
    log_poll_oldest sample_wrapped (by simp [log_inv, sample_wrapped])⟩

/-- Counterexample to C4: after `log_load_from_snapshot(INT_MAX, e)` on a new log
the invariant holds, `back` is `INT_MAX` and index `INT_MAX` returns e; an
append then returns 0 with `back` wrapped to `INT_MIN`, not `back + 1`, and
index `INT_MAX` is no longer found. -/
theorem log_append_entry_int_overflows :
    log_inv sample_snapshot_max ∧ 1 ≤ sample_snapshot_max.size ∧
    log_get_current_idx sample_snapshot_max = 2147483647 ∧
    log_get_at_idx sample_snapshot_max 2147483647 = get_result.found (entry_with_id 7) ∧
    (log_append_entry_int (-4) sample_snapshot_max (entry_with_id 8)).map
        (fun r => (r.1, log_get_current_idx r.2, log_get_at_idx r.2 2147483647)) =
      some (0, -2147483648, get_result.null) := by
  refine ⟨?_, ?_, ?_, ?_, ?_⟩
  · unfold log_inv
    decide
  · decide
  · decide
  · decide
  · decide

/-- C4, amended: on a log satisfying the invariant with `size ≥ 1` and
`back < INT_MAX`, an append that the persistence callback does not abort leaves
the capacity alone when `count < size` and doubles it exactly once when
`count = size`; `front` stays, `back` and `count` grow by one, the new entry is
returned at index old back + 1, and every index that was live returns the entry
it returned before. -/
theorem log_append_entry_int_frame {σ : Type} (S : Int) (me : log_private_t σ)
    (ety : raft_entry_t) (hinv : log_inv me) (hsize : 1 ≤ me.size)
    (hback : me.back < INT_MAX)
    (hno : ∀ f, offer_cb me = some f → (f me.raft.udata ety me.back).2 ≠ S) :
    ∃ r : Int × log_private_t σ, log_append_entry_int S me ety = some r ∧
      (me.count < me.size → r.2.size = me.size) ∧
      (me.count = me.size → r.2.size = 2 * me.size) ∧
      r.2.front = me.front ∧
      log_get_current_idx r.2 = log_get_current_idx me + 1 ∧
      log_count r.2 = log_count me + 1 ∧
      log_get_at_idx r.2 (me.back + 1) = get_result.found ety ∧
      ∀ i : Int, me.front + 1 ≤ i → i ≤ me.back →
        log_get_at_idx r.2 i = log_get_at_idx me i := by
  obtain ⟨r, a0, _, _, a3, a4, a5, a6, a7, _, a9, a10⟩ :=
    log_append_entry_int_added S me ety ⟨hinv, hsize⟩ hback hno
  obtain ⟨hf, hfb, hcnt, hsz⟩ := hinv
  refine ⟨r, a0, a3, ?_, a5, a6, a7, ?_, ?_⟩
  · intro h
    rw [a4 h]
    omega
  · rw [log_get_at_idx_live r.2 _ (by omega) (by omega) (by omega)]
    simp only [add_sub_cancel_right]
    rw [a9]
  · intro i h1 h2
    rw [log_get_at_idx_live r.2 i (by omega) (by omega) (by omega),
      log_get_at_idx_live me i hf h1 h2, a10 (i - 1) (by omega) (by omega)]

/-- Witness for C4 as amended: appending to the full, wrapped sample log (one
doubling). -/
theorem log_append_entry_int_frame_witness :
    log_inv sample_wrapped ∧ 1 ≤ sample_wrapped.size ∧ sample_wrapped.back < INT_MAX ∧
    ∃ r : Int × log_private_t Unit,
      log_append_entry_int (-4) sample_wrapped (entry_with_id 4) = some r ∧
      (sample_wrapped.count < sample_wrapped.size → r.2.size = sample_wrapped.size) ∧
      (sample_wrapped.count = sample_wrapped.size → r.2.size = 2 * sample_wrapped.size) ∧
      r.2.front = sample_wrapped.front ∧
      log_get_current_idx r.2 = log_get_current_idx sample_wrapped + 1 ∧
      log_count r.2 = log_count sample_wrapped + 1 ∧
      log_get_at_idx r.2 (sample_wrapped.back + 1) = get_result.found (entry_with_id 4) ∧
      ∀ i : Int, sample_wrapped.front + 1 ≤ i → i ≤ sample_wrapped.back →
        log_get_at_idx r.2 i = log_get_at_idx sample_wrapped i :=
  ⟨by simp [log_inv, sample_wrapped], by simp [sample_wrapped], by decide,
    log_append_entry_int_frame (-4) sample_wrapped (entry_with_id 4)
      (by simp [log_inv, sample_wrapped]) (by simp [sample_wrapped]) (by decide)
      (fun f hf => by simp [offer_cb, sample_wrapped] at hf)⟩

/-- C5: whatever the log held, `log_load_from_snapshot(idx, e)` with idx ≤ 0
leaves it as `log_clear` does (front = back = count = 0); with idx ≥ 1 it leaves
`log_count` 1, `log_get_current_idx` idx, `log_get_at_idx(idx)` returning e and
every other index j ≥ 1 not found; the capacity is unchanged either way. -/
theorem log_load_from_snapshot_spec {σ : Type} (me : log_private_t σ) (idx : Int)
    (entry : raft_entry_t) :
    (idx ≤ 0 →
      log_load_from_snapshot me idx entry = log_clear me ∧
      (log_load_from_snapshot me idx entry).front = 0 ∧
      (log_load_from_snapshot me idx entry).back = 0 ∧
      log_count (log_load_from_snapshot me idx entry) = 0 ∧
      (log_load_from_snapshot me idx entry).size = me.size) ∧
    (1 ≤ idx →
      log_count (log_load_from_snapshot me idx entry) = 1 ∧
      log_get_current_idx (log_load_from_snapshot me idx entry) = idx ∧
      log_get_at_idx (log_load_from_snapshot me idx entry) idx = get_result.found entry ∧
      (∀ j : Int, 1 ≤ j → j ≠ idx →
        log_get_at_idx (log_load_from_snapshot me idx entry) j = get_result.null) ∧
      (log_load_from_snapshot me idx entry).size = me.size) := by
  constructor
  · intro h
    simp [log_load_from_snapshot, h, log_clear, log_count]
  · intro h
    have hn : ¬ idx ≤ 0 := by omega
    have hfront : (log_load_from_snapshot me idx entry).front = idx - 1 := by
      simp [log_load_from_snapshot, hn]
    have hback : (log_load_from_snapshot me idx entry).back = idx := by
      simp [log_load_from_snapshot, hn]
    have hsize : (log_load_from_snapshot me idx entry).size = me.size := by
      simp [log_load_from_snapshot, hn]
    have hent : (log_load_from_snapshot me idx entry).entries =
        Function.update me.entries (REL_POS (idx - 1) me.size) entry := by
      simp [log_load_from_snapshot, hn, __get_ety]
    refine ⟨by simp [log_load_from_snapshot, hn, log_count], hback, ?_, ?_, hsize⟩
    · rw [log_get_at_idx_live _ idx (by omega) (by omega) (by omega), hent, hsize]
      simp
    · intro j hj hne
      exact log_get_at_idx_null _ j hj (by rw [hfront, hback]; omega)

/-- Scenario E of the specification, as an instance of C5. -/
theorem log_load_from_snapshot_scenario :
    log_count (log_load_from_snapshot sample_polled 0 (entry_with_id 7)) = 0 ∧
    log_count (log_load_from_snapshot sample_polled 5 (entry_with_id 7)) = 1 ∧
    log_get_at_idx (log_load_from_snapshot sample_polled 5 (entry_with_id 7)) 5 =
      get_result.found (entry_with_id 7) ∧
    log_get_at_idx (log_load_from_snapshot sample_polled 5 (entry_with_id 7)) 4 =
      get_result.null ∧
    log_get_at_idx (log_load_from_snapshot sample_polled 5 (entry_with_id 7)) 6 =
      get_result.null :=
  have h0 := (log_load_from_snapshot_spec sample_polled 0 (entry_with_id 7)).1 (by decide)
  have h5 := (log_load_from_snapshot_spec sample_polled 5 (entry_with_id 7)).2 (by decide)
  ⟨h0.2.2.2.1, h5.1, h5.2.2.1, h5.2.2.2.1 4 (by decide) (by decide),
    h5.2.2.2.1 6 (by decide) (by decide)⟩

/-- C6: on a log satisfying the invariant with `front > 0` and `count < size`, a
prepend that the persistence callback does not abort returns the callback's
status (0 when none is registered), moves `front` down by one and `count` up by
one, leaves `back` and `size` alone, makes the entry retrievable at the external
index equal to the old `front`, and leaves every index that was live returning
what it returned before. -/
theorem log_offer_first_frame {σ : Type} (S : Int) (me : log_private_t σ)
    (ety : raft_entry_t) (hinv : log_inv me) (hfront : 0 < me.front)
    (hroom : me.count < me.size)
    (hno : ∀ f, offer_cb me = some f → (f me.raft.udata ety (me.front - 1)).2 ≠ S) :
    (log_offer_first S me ety).1 = offer_status me ety (me.front - 1) ∧
    (offer_cb me = none → (log_offer_first S me ety).1 = 0) ∧
    (log_offer_first S me ety).2.front = me.front - 1 ∧
    log_count (log_offer_first S me ety).2 = log_count me + 1 ∧
    log_get_current_idx (log_offer_first S me ety).2 = log_get_current_idx me ∧
    (log_offer_first S me ety).2.size = me.size ∧
    log_get_at_idx (log_offer_first S me ety).2 me.front = get_result.found ety ∧
    ∀ i : Int, me.front + 1 ≤ i → i ≤ me.back →
      log_get_at_idx (log_offer_first S me ety).2 i = log_get_at_idx me i := by
  obtain ⟨o1, o2, o3, o4, o5, _, o7⟩ := log_offer_first_added S me ety (by omega) hno
  obtain ⟨hf, hfb, hcnt, hsz⟩ := hinv
  refine ⟨o1, ?_, o2, o3, o4, o5, ?_, ?_⟩
  · intro hnone
    rw [o1]
    unfold offer_status
    rw [hnone]
  · rw [log_get_at_idx_live _ me.front (by omega) (by omega) (by omega), o7, o5]
    simp
  · intro i h1 h2
    rw [log_get_at_idx_live _ i (by omega) (by omega) (by omega),
      log_get_at_idx_live me i hf h1 h2, o7, o5, Function.update_noteq]
    exact (REL_POS_ne (by omega) (by omega) (by omega)).symm

/-- Witness for C6: prepending to the polled sample log. -/
theorem log_offer_first_frame_witness :
    log_inv sample_polled ∧ 0 < sample_polled.front ∧
    sample_polled.count < sample_polled.size ∧
    ((log_offer_first (-4) sample_polled (entry_with_id 10)).1 =
      offer_status sample_polled (entry_with_id 10) (sample_polled.front - 1) ∧
    (offer_cb sample_polled = none →
      (log_offer_first (-4) sample_polled (entry_with_id 10)).1 = 0) ∧
    (log_offer_first (-4) sample_polled (entry_with_id 10)).2.front =
      sample_polled.front - 1 ∧
    log_count (log_offer_first (-4) sample_polled (entry_with_id 10)).2 =
      log_count sample_polled + 1 ∧
    log_get_current_idx (log_offer_first (-4) sample_polled (entry_with_id 10)).2 =
      log_get_current_idx sample_polled ∧
    (log_offer_first (-4) sample_polled (entry_with_id 10)).2.size = sample_polled.size ∧
    log_get_at_idx (log_offer_first (-4) sample_polled (entry_with_id 10)).2
      sample_polled.front = get_result.found (entry_with_id 10) ∧
    ∀ i : Int, sample_polled.front + 1 ≤ i → i ≤ sample_polled.back →
      log_get_at_idx (log_offer_first (-4) sample_polled (entry_with_id 10)).2 i =
        log_get_at_idx sample_polled i) :=
  ⟨by simp [log_inv, sample_polled], by simp [sample_polled], by simp [sample_polled],
    log_offer_first_frame (-4) sample_polled (entry_with_id 10)
      (by simp [log_inv, sample_polled]) (by simp [sample_polled]) (by simp [sample_polled])
      (fun f hf => by simp [offer_cb, sample_polled] at hf)⟩

/-- C7: when `front` is 0, `log_offer_first` returns -1 and leaves the whole
state as it was: cursors, count, size, every stored entry, and the server (no
callback has been called). -/
theorem log_offer_first_no_room {σ : Type} (S : Int) (me : log_private_t σ)
    (ety : raft_entry_t) (hfront : me.front = 0) :
    log_offer_first S me ety = (-1, me) := by
  simp [log_offer_first, hfront]

/-- Witness for C7: prepending to a new log. -/
theorem log_offer_first_no_room_witness :
    (log_new : log_private_t Unit).front = 0 ∧
    log_offer_first (-4) (log_new : log_private_t Unit) (entry_with_id 1) =
      (-1, (log_new : log_private_t Unit)) :=
  ⟨rfl, log_offer_first_no_room (-4) log_new (entry_with_id 1) rfl⟩

/-- Counterexample to C8: on the log that `log_load_from_snapshot(INT_MAX, e)`
leaves, with no callback registered, an append returns 0, not the shutdown
signal, yet `log_get_current_idx` is `INT_MIN` rather than one more than before
and the appended entry is not found at index old back + 1. -/
theorem log_append_entry_int_not_added :
    log_wf sample_snapshot_max ∧
    (log_append_entry_int (-4) sample_snapshot_max (entry_with_id 8)).map
        (fun r => (r.1, r.2.back, log_get_at_idx r.2 (sample_snapshot_max.back + 1))) =
      some (0, -2147483648, get_result.null) := by
  refine ⟨?_, ?_⟩
  · unfold log_wf log_inv
    decide
  · decide

/-- C8, amended: on a well-formed log, with a nonzero shutdown code,
`log_append_entry` returns the shutdown signal exactly when a registered
`log_offer` callback returned it; in that case the cursors, the count and the
answer of `log_get_at_idx` at every index are as before; in every other case
the callback's status (0 without a callback) is returned and, when
`back < INT_MAX`, the entry is added. -/
theorem log_append_entry_int_shutdown {σ : Type} (S : Int) (me : log_private_t σ)
    (ety : raft_entry_t) (hwf : log_wf me) (hS : S ≠ 0) :
    ∃ r : Int × log_private_t σ, log_append_entry_int S me ety = some r ∧
      (r.1 = S ↔ ∃ f, offer_cb me = some f ∧ (f me.raft.udata ety me.back).2 = S) ∧
      (r.1 = S →
        r.2.front = me.front ∧ log_get_current_idx r.2 = log_get_current_idx me ∧
        log_count r.2 = log_count me ∧
        ∀ i : Int, log_get_at_idx r.2 i = log_get_at_idx me i) ∧
      (r.1 ≠ S →
        r.1 = offer_status me ety me.back ∧ (offer_cb me = none → r.1 = 0) ∧
        (me.back < INT_MAX →
          r.2.front = me.front ∧ log_get_current_idx r.2 = log_get_current_idx me + 1 ∧
          log_count r.2 = log_count me + 1 ∧
          log_get_at_idx r.2 (me.back + 1) = get_result.found ety)) := by
  have hf : 0 ≤ me.front := hwf.1.1
  have hfb : me.front ≤ me.back := hwf.1.2.1
  by_cases hab : ∃ f, offer_cb me = some f ∧ (f me.raft.udata ety me.back).2 = S
  · obtain ⟨f, hcb, hst⟩ := hab
    obtain ⟨r, a0, a1, _, a3, a4, a5, _, a7⟩ :=
      log_append_entry_int_aborted S me ety hwf f hcb hst
    refine ⟨r, a0, ⟨fun _ => ⟨f, hcb, hst⟩, fun _ => a1⟩, fun _ => ⟨a3, a4, a5, ?_⟩,
      fun h => absurd a1 h⟩
    intro i
    by_cases h1 : i < 1
    · rw [log_get_at_idx_assert _ i h1, log_get_at_idx_assert _ i h1]
    · by_cases h2 : i ≤ me.front ∨ me.back < i
      · rw [log_get_at_idx_null me i (by omega) h2,
          log_get_at_idx_null _ i (by omega) (by rw [a3, a4]; exact h2)]
      · rw [log_get_at_idx_live me i hf (by omega) (by omega),
          log_get_at_idx_live _ i (by omega) (by omega) (by omega),
          a7 (i - 1) (by omega) (by omega)]
  · have hno : ∀ f, offer_cb me = some f → (f me.raft.udata ety me.back).2 ≠ S :=
      fun f hcb hst => hab ⟨f, hcb, hst⟩
    obtain ⟨r, a0, a1⟩ := log_append_entry_int_status S me ety hwf hno
    have hnone : offer_cb me = none → r.1 = 0 := by
      intro h
      rw [a1]
      unfold offer_status
      rw [h]
    have hne : r.1 ≠ S := by
      cases hcb : offer_cb me with
      | none =>
        rw [hnone hcb]
        exact fun h => hS h.symm
      | some f =>
        rw [a1]
        unfold offer_status
        rw [hcb]
        exact hno f hcb
    refine ⟨r, a0, ⟨fun h => absurd h hne, fun h => absurd h hab⟩, fun h => absurd h hne,
      fun _ => ⟨a1, hnone, fun hback => ?_⟩⟩
    obtain ⟨r2, b0, _, _, _, _, b5, b6, b7, _, b9, _⟩ :=
      log_append_entry_int_added S me ety hwf hback hno
    have e : r2 = r := Option.some.inj (b0.symm.trans a0)
    subst e
    refine ⟨b5, b6, b7, ?_⟩
    rw [log_get_at_idx_live r2.2 _ (by omega) (by omega) (by omega)]
    simp only [add_sub_cancel_right]
    rw [b9]

/-- Witness for C8 as amended: an append to a new log whose backend refuses with
-4. -/
theorem log_append_entry_int_shutdown_witness :
    log_wf (sample_refusing (-4)) ∧ (-4 : Int) ≠ 0 ∧
    ∃ r : Int × log_private_t Nat,
      log_append_entry_int (-4) (sample_refusing (-4)) (entry_with_id 1) = some r ∧
      (r.1 = -4 ↔ ∃ f, offer_cb (sample_refusing (-4)) = some f ∧
        (f (sample_refusing (-4)).raft.udata (entry_with_id 1)
          (sample_refusing (-4)).back).2 = -4) ∧
      (r.1 = -4 →
        r.2.front = (sample_refusing (-4)).front ∧
        log_get_current_idx r.2 = log_get_current_idx (sample_refusing (-4)) ∧
        log_count r.2 = log_count (sample_refusing (-4)) ∧
        ∀ i : Int, log_get_at_idx r.2 i = log_get_at_idx (sample_refusing (-4)) i) ∧
      (r.1 ≠ -4 →
        r.1 = offer_status (sample_refusing (-4)) (entry_with_id 1)
          (sample_refusing (-4)).back ∧
        (offer_cb (sample_refusing (-4)) = none → r.1 = 0) ∧
        ((sample_refusing (-4)).back < INT_MAX →
          r.2.front = (sample_refusing (-4)).front ∧
          log_get_current_idx r.2 = log_get_current_idx (sample_refusing (-4)) + 1 ∧
          log_count r.2 = log_count (sample_refusing (-4)) + 1 ∧
          log_get_at_idx r.2 ((sample_refusing (-4)).back + 1) =
            get_result.found (entry_with_id 1))) :=
  have hwf : log_wf (sample_refusing (-4)) := by
    simp [log_wf, log_inv, sample_refusing, log_set_callbacks, log_new, log_clear,
      INITIAL_CAPACITY]
  ⟨hwf, by decide,
    log_append_entry_int_shutdown (-4) (sample_refusing (-4)) (entry_with_id 1) hwf
      (by decide)⟩

/-- Counterexample to C9: the invariant holds before and fails after
(1) `log_delete(1)` on a log whose `front` is 1, which takes `back` below
`front`; (2) `log_offer_first` on a full log, which takes `count` above `size`;
(3) `log_offer_first` refused by the persistence callback, which moves `front`
without `count`; (4) `log_append_entry` on the log that
`log_load_from_snapshot(INT_MAX, e)` leaves, which wraps `back` to `INT_MIN`,
below `front`. -/
theorem log_inv_not_preserved :
    (log_inv sample_polled ∧
      ∃ r : log_private_t Unit, log_delete sample_polled 1 = some r ∧
        r.front = 1 ∧ r.back = 0 ∧ ¬ log_inv r) ∧
    (log_inv sample_wrapped ∧
      (log_offer_first (-4) sample_wrapped (entry_with_id 9)).2.count = 3 ∧
      (log_offer_first (-4) sample_wrapped (entry_with_id 9)).2.size = 2 ∧
      ¬ log_inv (log_offer_first (-4) sample_wrapped (entry_with_id 9)).2) ∧
    (log_inv (sample_refusing_polled (-4)) ∧
      (log_offer_first (-4) (sample_refusing_polled (-4)) (entry_with_id 9)).2.front = 0 ∧
      (log_offer_first (-4) (sample_refusing_polled (-4)) (entry_with_id 9)).2.back = 3 ∧
      (log_offer_first (-4) (sample_refusing_polled (-4)) (entry_with_id 9)).2.count = 2 ∧
      ¬ log_inv (log_offer_first (-4) (sample_refusing_polled (-4)) (entry_with_id 9)).2) ∧
    (log_inv sample_snapshot_max ∧
      (log_append_entry_int (-4) sample_snapshot_max (entry_with_id 8)).map
          (fun r => (r.2.front, r.2.back, r.2.count)) =
        some (2147483646, -2147483648, 2)) := by
  refine ⟨⟨by simp [log_inv, sample_polled], ?_⟩, ⟨by simp [log_inv, sample_wrapped], ?_⟩,
    ⟨by simp [log_inv, sample_refusing_polled, sample_refusing, log_set_callbacks, log_new,
      log_clear, INITIAL_CAPACITY], ?_⟩, ⟨by unfold log_inv; decide, by decide⟩⟩
  · obtain ⟨r, h0, h1, _, h3, _⟩ := log_delete_spec sample_polled 1
    have hb : r.back = 0 := by rw [h1]; simp [sample_polled]
    have hf : r.front = 1 := by rw [h3]; simp [sample_polled]
    refine ⟨r, h0, hf, hb, ?_⟩
    intro hinv
    have := hinv.2.1
    omega
  · obtain ⟨_, o2, o3, o4, o5, _⟩ := log_offer_first_added (-4) sample_wrapped
      (entry_with_id 9) (by simp [sample_wrapped])
      (fun f hf => by simp [offer_cb, sample_wrapped] at hf)
    have hc : (log_offer_first (-4) sample_wrapped (entry_with_id 9)).2.count = 3 := by
      rw [o3]; simp [sample_wrapped]
    have hs : (log_offer_first (-4) sample_wrapped (entry_with_id 9)).2.size = 2 := by
      rw [o5]; simp [sample_wrapped]
    have hf : (log_offer_first (-4) sample_wrapped (entry_with_id 9)).2.front = 0 := by
      rw [o2]; simp [sample_wrapped]
    have hb : (log_offer_first (-4) sample_wrapped (entry_with_id 9)).2.back = 3 := by
      rw [o4]; simp [sample_wrapped]
    refine ⟨hc, hs, ?_⟩
    intro hinv
    have := hinv.2.2.2
    omega
  · obtain ⟨_, o2, o3, o4, _⟩ := log_offer_first_aborted (-4) (sample_refusing_polled (-4))
      (entry_with_id 9) (by simp [sample_refusing_polled])
      (fun ud _ _ => (ud + 1, -4)) rfl rfl
    have hf : (log_offer_first (-4) (sample_refusing_polled (-4))
        (entry_with_id 9)).2.front = 0 := by
      rw [o2]; simp [sample_refusing_polled]
    have hb : (log_offer_first (-4) (sample_refusing_polled (-4))
        (entry_with_id 9)).2.back = 3 := by
      rw [o4]; simp [sample_refusing_polled]
    have hc : (log_offer_first (-4) (sample_refusing_polled (-4))
        (entry_with_id 9)).2.count = 2 := by
      rw [o3]; simp [sample_refusing_polled]
    refine ⟨hf, hb, hc, ?_⟩
    intro hinv
    have := hinv.2.2.1
    omega

/-- C9, amended: the invariant together with `size ≥ 1` is preserved by
`log_append_entry` when `back < INT_MAX` or the callback signals shutdown (it
returns in every case), by `log_poll`, `log_load_from_snapshot` and `log_clear`,
by `log_delete(idx)` when `idx > front`, and by `log_offer_first` when
`front = 0` or when `count < size` and the persistence callback does not signal
shutdown. -/
theorem log_wf_preserved_int {σ : Type} (S : Int) (me : log_private_t σ)
    (hwf : log_wf me) :
    (∀ ety : raft_entry_t,
      (me.back < INT_MAX ∨
        ∃ f, offer_cb me = some f ∧ (f me.raft.udata ety me.back).2 = S) →
      ∃ r : Int × log_private_t σ,
        log_append_entry_int S me ety = some r ∧ log_wf r.2) ∧
    (∀ ety : raft_entry_t,
      (me.front = 0 ∨ (me.count < me.size ∧
        ∀ f, offer_cb me = some f → (f me.raft.udata ety (me.front - 1)).2 ≠ S)) →
      log_wf (log_offer_first S me ety).2) ∧
    (∀ idx : Int, me.front < idx →
      ∃ r : log_private_t σ, log_delete me idx = some r ∧ log_wf r) ∧
    log_wf (log_poll me).2 ∧
    (∀ (idx : Int) (entry : raft_entry_t), log_wf (log_load_from_snapshot me idx entry)) ∧
    log_wf (log_clear me) := by
  have hwf0 := hwf
  obtain ⟨⟨hf, hfb, hcnt, hsz⟩, hpos⟩ := hwf
  refine ⟨?_, ?_, ?_, ?_, ?_, ?_⟩
  · intro ety hcase
    by_cases hab : ∃ f, offer_cb me = some f ∧ (f me.raft.udata ety me.back).2 = S
    · obtain ⟨f, hcb, hst⟩ := hab
      obtain ⟨r, a0, _, a2, _⟩ := log_append_entry_int_aborted S me ety hwf0 f hcb hst
      exact ⟨r, a0, a2⟩
    · have hback : me.back < INT_MAX := by
        rcases hcase with h | h
        · exact h
        · exact absurd h hab
      obtain ⟨r, a0, _, a2, _⟩ := log_append_entry_int_added S me ety hwf0 hback
        (fun f hcb hst => hab ⟨f, hcb, hst⟩)
      exact ⟨r, a0, a2⟩
  · intro ety h
    rcases h with h0 | ⟨hroom, hno⟩
    · simp only [log_offer_first, h0, if_true]
      exact hwf0
    · by_cases h0 : me.front = 0
      · simp only [log_offer_first, h0, if_true]
        exact hwf0
      · obtain ⟨_, o2, o3, o4, o5, _⟩ := log_offer_first_added S me ety h0 hno
        refine ⟨⟨?_, ?_, ?_, ?_⟩, ?_⟩ <;> simp only [o2, o3, o4, o5] <;> omega
  · intro idx hidx
    obtain ⟨r, h0, h1, h2, h3, h4, _⟩ := log_delete_spec me idx
    have hb : me.front ≤ r.back ∧ r.back ≤ me.back := by
      rw [h1, min_def]
      split <;> omega
    refine ⟨r, h0, ⟨⟨?_, ?_, ?_, ?_⟩, ?_⟩⟩ <;> simp only [h2, h3, h4] <;> omega
  · by_cases hc : me.count = 0
    · have : log_poll me = (none, me) := by simp [log_poll, log_count, hc]
      rw [this]
      exact hwf0
    · obtain ⟨_, p2, p3, p4, p5, _⟩ := log_poll_spec me hc
      refine ⟨⟨?_, ?_, ?_, ?_⟩, ?_⟩ <;> simp only [p2, p3, p4, p5] <;> omega
  · intro idx entry
    by_cases h : idx ≤ 0
    · refine ⟨⟨?_, ?_, ?_, ?_⟩, ?_⟩ <;> simp [log_load_from_snapshot, h, log_clear] <;> omega
    · refine ⟨⟨?_, ?_, ?_, ?_⟩, ?_⟩ <;> simp [log_load_from_snapshot, h] <;> omega
  · refine ⟨⟨?_, ?_, ?_, ?_⟩, ?_⟩ <;> simp [log_clear] <;> omega

/-- Witness for C9 as amended: the polled sample log. -/
theorem log_wf_preserved_int_witness :
    log_wf sample_polled ∧
    ((∀ ety : raft_entry_t,
      (sample_polled.back < INT_MAX ∨
        ∃ f, offer_cb sample_polled = some f ∧
          (f sample_polled.raft.udata ety sample_polled.back).2 = -4) →
      ∃ r : Int × log_private_t Unit,
        log_append_entry_int (-4) sample_polled ety = some r ∧ log_wf r.2) ∧
    (∀ ety : raft_entry_t,
      (sample_polled.front = 0 ∨ (sample_polled.count < sample_polled.size ∧
        ∀ f, offer_cb sample_polled = some f →
          (f sample_polled.raft.udata ety (sample_polled.front - 1)).2 ≠ -4)) →
      log_wf (log_offer_first (-4) sample_polled ety).2) ∧
    (∀ idx : Int, sample_polled.front < idx →
      ∃ r : log_private_t Unit, log_delete sample_polled idx = some r ∧ log_wf r) ∧
    log_wf (log_poll sample_polled).2 ∧
    (∀ (idx : Int) (entry : raft_entry_t),
      log_wf (log_load_from_snapshot sample_polled idx entry)) ∧
    log_wf (log_clear sample_polled)) :=
  ⟨by simp [log_wf, log_inv, sample_polled],
    log_wf_preserved_int (-4) sample_polled (by simp [log_wf, log_inv, sample_polled])⟩

set_option maxRecDepth 10000 in
/-- C10, the code at a failing input: after ten appends, a poll and one more
append the log is full with `front = 1`, and index 11 returns entry 11; a
prepend then returns 0, and index 11 returns the prepended entry: the newest
live entry has been overwritten. -/
theorem log_offer_first_full_overwrites :
    (sample_full (-4)).map (fun st => (st.front, st.back - st.front, st.size)) =
      some (1, 10, 10) ∧
    (sample_full (-4)).map (fun st => log_get_at_idx st 11) =
      some (get_result.found (entry_with_id 11)) ∧
    (sample_full (-4)).map (fun st => (log_offer_first (-4) st (entry_with_id 99)).1) =
      some 0 ∧
    (sample_full (-4)).map
        (fun st => log_get_at_idx (log_offer_first (-4) st (entry_with_id 99)).2 11) =
      some (get_result.found (entry_with_id 99)) ∧
    (sample_full (-4)).map
        (fun st => ((log_offer_first (-4) st (entry_with_id 99)).2.count,
          (log_offer_first (-4) st (entry_with_id 99)).2.size)) = some (11, 10) := by
  refine ⟨?_, ?_, ?_, ?_, ?_⟩ <;> decide

/-- C11: on a log satisfying the invariant with `size ≥ 1`, for an external
index idx ≥ 1 with a = idx - 1: when a is not live, `log_get_from_idx` returns
NULL with a run length of 0; otherwise it returns the slot a mod size with run
length n = min(back - a, size - a mod size), where n ≥ 1, the run stays inside
the array, and element j of the run is the entry `log_get_at_idx(idx + j)`
returns. -/
theorem log_get_from_idx_run {σ : Type} (me : log_private_t σ) (idx : Int)
    (hinv : log_inv me) (hsize : 1 ≤ me.size) (hidx : 1 ≤ idx) :
    ((idx - 1 < me.front ∨ me.back ≤ idx - 1) →
      log_get_from_idx me idx = range_result.null 0) ∧
    (me.front ≤ idx - 1 → idx - 1 < me.back →
      ∃ n : Int,
        log_get_from_idx me idx = range_result.view ((idx - 1) % me.size) n ∧
        n = min (me.back - (idx - 1)) (me.size - (idx - 1) % me.size) ∧
        1 ≤ n ∧ 0 ≤ (idx - 1) % me.size ∧ (idx - 1) % me.size + n ≤ me.size ∧
        ∀ j : Int, 0 ≤ j → j < n →
          log_get_at_idx me (idx + j) =
            get_result.found (me.entries ((idx - 1) % me.size + j))) := by
  obtain ⟨hf, hfb, hcnt, hsz⟩ := hinv
  have ha : 0 ≤ idx - 1 := by omega
  constructor
  · intro h
    simp [log_get_from_idx, ha, h]
  · intro h1 h2
    have hlive : ¬ (idx - 1 < me.front ∨ me.back ≤ idx - 1) := by omega
    have hspos : 0 < me.size := by omega
    have hi0 : 0 ≤ (idx - 1) % me.size := Int.emod_nonneg _ (by omega)
    have hi1 : (idx - 1) % me.size < me.size := Int.emod_lt_of_pos _ hspos
    have hri : REL_POS (idx - 1) me.size = (idx - 1) % me.size :=
      REL_POS_eq_emod ha (by omega)
    have hrb : REL_POS me.back me.size = me.back % me.size :=
      REL_POS_eq_emod (by omega) (by omega)
    have hback : me.back = (idx - 1) + (me.back - (idx - 1)) := by omega
    have key : (if (idx - 1) % me.size < REL_POS me.back me.size
          then REL_POS me.back me.size - (idx - 1) % me.size
          else me.size - (idx - 1) % me.size) =
        min (me.back - (idx - 1)) (me.size - (idx - 1) % me.size) := by
      rw [hrb]
      by_cases hw : (idx - 1) % me.size + (me.back - (idx - 1)) < me.size
      · have hb : me.back % me.size = (idx - 1) % me.size + (me.back - (idx - 1)) := by
          conv_lhs => rw [hback]
          exact emod_add_small hspos (by omega) hw
        rw [hb, min_def]
        split <;> split <;> omega
      · have hb : me.back % me.size =
            (idx - 1) % me.size + (me.back - (idx - 1)) - me.size := by
          conv_lhs => rw [hback]
          exact emod_add_wrap (by omega) (by omega)
        rw [hb, min_def]
        split <;> split <;> omega
    have hn : log_get_from_idx me idx = range_result.view ((idx - 1) % me.size)
        (min (me.back - (idx - 1)) (me.size - (idx - 1) % me.size)) := by
      simp only [log_get_from_idx, ha, hlive, hri, not_true_eq_false, if_false, key]
    have hmin1 : min (me.back - (idx - 1)) (me.size - (idx - 1) % me.size) ≤
        me.back - (idx - 1) := min_le_left _ _
    have hmin2 : min (me.back - (idx - 1)) (me.size - (idx - 1) % me.size) ≤
        me.size - (idx - 1) % me.size := min_le_right _ _
    refine ⟨_, hn, rfl, ?_, hi0, by omega, ?_⟩
    · rw [min_def]
      split <;> omega
    · intro j hj0 hjn
      rw [log_get_at_idx_live me (idx + j) hf (by omega) (by omega),
        REL_POS_eq_emod (by omega) (by omega)]
      have e : idx + j - 1 = (idx - 1) + j := by omega
      rw [e, emod_add_small hspos hj0 (by omega)]

/-- Witness for C11: the run from index 2 of the wrapped sample log stops at the
end of the array. -/
theorem log_get_from_idx_run_witness :
    log_inv sample_wrapped ∧ 1 ≤ sample_wrapped.size ∧ (1 : Int) ≤ 2 ∧
    (((2 : Int) - 1 < sample_wrapped.front ∨ sample_wrapped.back ≤ (2 : Int) - 1) →
      log_get_from_idx sample_wrapped 2 = range_result.null 0) ∧
    (sample_wrapped.front ≤ (2 : Int) - 1 → (2 : Int) - 1 < sample_wrapped.back →
      ∃ n : Int,
        log_get_from_idx sample_wrapped 2 =
          range_result.view (((2 : Int) - 1) % sample_wrapped.size) n ∧
        n = min (sample_wrapped.back - ((2 : Int) - 1))
          (sample_wrapped.size - ((2 : Int) - 1) % sample_wrapped.size) ∧
        1 ≤ n ∧ 0 ≤ ((2 : Int) - 1) % sample_wrapped.size ∧
        ((2 : Int) - 1) % sample_wrapped.size + n ≤ sample_wrapped.size ∧
        ∀ j : Int, 0 ≤ j → j < n →
          log_get_at_idx sample_wrapped (2 + j) =
            get_result.found
              (sample_wrapped.entries (((2 : Int) - 1) % sample_wrapped.size + j))) :=
  ⟨by simp [log_inv, sample_wrapped], by simp [sample_wrapped], by decide,
    log_get_from_idx_run sample_wrapped 2 (by simp [log_inv, sample_wrapped])
      (by simp [sample_wrapped]) (by decide)⟩

/-- C12: with `size ≥ 1`, `log_get_at_idx(idx)` has exactly three outcomes: its
assertion fails when idx < 1; it returns NULL when idx ≥ 1 lies outside
[front+1, back]; and it returns the entry stored in slot (idx-1) mod size, a
slot of the array, when idx ≥ 1 lies inside. -/
theorem log_get_at_idx_outcomes {σ : Type} (me : log_private_t σ) (idx : Int)
    (hsize : 1 ≤ me.size) :
    (idx < 1 → log_get_at_idx me idx = get_result.assert_failed) ∧
    (1 ≤ idx → (idx < me.front + 1 ∨ me.back < idx) →
      log_get_at_idx me idx = get_result.null) ∧
    (1 ≤ idx → me.front + 1 ≤ idx → idx ≤ me.back →
      log_get_at_idx me idx = get_result.found (me.entries ((idx - 1) % me.size)) ∧
      0 ≤ (idx - 1) % me.size ∧ (idx - 1) % me.size < me.size) := by
  refine ⟨log_get_at_idx_assert me idx, fun h1 h2 => ?_, fun h1 h2 h3 => ?_⟩
  · exact log_get_at_idx_null me idx h1 (by omega)
  · have a : 0 ≤ idx - 1 := by omega
    have b : ¬ (idx - 1 < me.front ∨ me.back ≤ idx - 1) := by omega
    refine ⟨?_, Int.emod_nonneg _ (by omega), Int.emod_lt_of_pos _ (by omega)⟩
    simp [log_get_at_idx, __get_ety, a, b, REL_POS_eq_emod a (by omega : (0 : Int) ≤ me.size)]

/-- Witness for C12: index 3 of the wrapped sample log. -/
theorem log_get_at_idx_outcomes_witness :
    1 ≤ sample_wrapped.size ∧
    (((3 : Int) < 1 → log_get_at_idx sample_wrapped 3 = get_result.assert_failed) ∧
    ((1 : Int) ≤ 3 → ((3 : Int) < sample_wrapped.front + 1 ∨ sample_wrapped.back < 3) →
      log_get_at_idx sample_wrapped 3 = get_result.null) ∧
    ((1 : Int) ≤ 3 → sample_wrapped.front + 1 ≤ 3 → 3 ≤ sample_wrapped.back →
      log_get_at_idx sample_wrapped 3 =
        get_result.found (sample_wrapped.entries (((3 : Int) - 1) % sample_wrapped.size)) ∧
      0 ≤ ((3 : Int) - 1) % sample_wrapped.size ∧
      ((3 : Int) - 1) % sample_wrapped.size < sample_wrapped.size)) :=
  ⟨by simp [sample_wrapped],
    log_get_at_idx_outcomes sample_wrapped 3 (by simp [sample_wrapped])⟩

/-- C13: on a log satisfying the invariant, `log_peektail` returns NULL exactly
when `count` is 0, and otherwise returns the entry that `log_get_at_idx` returns
for `log_get_current_idx()`. -/
theorem log_peektail_newest {σ : Type} (me : log_private_t σ) (hinv : log_inv me) :
    (log_peektail me = none ↔ me.count = 0) ∧
    (me.count ≠ 0 →
      ∃ e : raft_entry_t, log_peektail me = some e ∧
        log_get_at_idx me (log_get_current_idx me) = get_result.found e) := by
  obtain ⟨hf, hfb, hcnt, hsz⟩ := hinv
  constructor
  · constructor
    · intro h
      by_cases hc : 0 = log_count me
      · exact hc.symm
      · simp [log_peektail, hc] at h
    · intro h
      simp [log_peektail, log_count, h]
  · intro hne
    have hc : ¬ (0 = log_count me) := fun h => hne h.symm
    refine ⟨me.entries (REL_POS (me.back - 1) me.size), by simp [log_peektail, hc, __get_ety],
      ?_⟩
    exact log_get_at_idx_live me me.back hf (by omega) (le_refl _)

/-- Witness for C13: the tail of the wrapped sample log. -/
theorem log_peektail_newest_witness :
    log_inv sample_wrapped ∧
    ((log_peektail sample_wrapped = none ↔ sample_wrapped.count = 0) ∧
    (sample_wrapped.count ≠ 0 →
      ∃ e : raft_entry_t, log_peektail sample_wrapped = some e ∧
        log_get_at_idx sample_wrapped (log_get_current_idx sample_wrapped) =
          get_result.found e)) :=
  ⟨by simp [log_inv, sample_wrapped],
    log_peektail_newest sample_wrapped (by simp [log_inv, sample_wrapped])⟩

/-- C16, the code at a failing input: an entry appended to a new log is offered
to the persistence backend with index 0; `log_poll` reports it with index 0, but
`log_delete` reports the same entry with index 1. -/
theorem log_delete_reports_external_index :
    ((log_append_entry (-4) sample_recording (entry_with_id 1)).map
        (fun r => r.2.raft.calls) =
      some [call_t.cb_log_offer (entry_with_id 1) 0,
            call_t.raft_offer_log (entry_with_id 1) 0]) ∧
    ((log_append_entry (-4) sample_recording (entry_with_id 1)).map
        (fun r => (log_poll r.2).2.raft.calls) =
      some [call_t.cb_log_offer (entry_with_id 1) 0,
            call_t.raft_offer_log (entry_with_id 1) 0,
            call_t.cb_log_poll (entry_with_id 1) 0]) ∧
    (((log_append_entry (-4) sample_recording (entry_with_id 1)).bind
        (fun r => log_delete r.2 1)).map (fun r => r.raft.calls) =
      some [call_t.cb_log_offer (entry_with_id 1) 0,
            call_t.raft_offer_log (entry_with_id 1) 0,
            call_t.cb_log_pop (entry_with_id 1) 1,
            call_t.raft_pop_log (entry_with_id 1) 1]) := by
  refine ⟨?_, ?_, ?_⟩ <;> decide

/-- C17: on a log satisfying the invariant with `front > 0`, a prepend that the
registered `log_offer` callback answers with the shutdown signal returns that
signal, writes no entry and leaves `back` and `count` alone, but has moved
`front` down by one, so that afterwards `count = back - front - 1`. -/
theorem log_offer_first_shutdown_moves_front {σ : Type} (S : Int) (me : log_private_t σ)
    (ety : raft_entry_t) (hinv : log_inv me) (hfront : 0 < me.front)
    (f : σ → raft_entry_t → Int → σ × Int) (hcb : offer_cb me = some f)
    (hS : (f me.raft.udata ety (me.front - 1)).2 = S) :
    (log_offer_first S me ety).1 = S ∧
    (log_offer_first S me ety).2.entries = me.entries ∧
    log_get_current_idx (log_offer_first S me ety).2 = log_get_current_idx me ∧
    log_count (log_offer_first S me ety).2 = log_count me ∧
    (log_offer_first S me ety).2.front = me.front - 1 ∧
    (log_offer_first S me ety).2.count =
      (log_offer_first S me ety).2.back - (log_offer_first S me ety).2.front - 1 := by
  obtain ⟨o1, o2, o3, o4, _, _, o7⟩ :=
    log_offer_first_aborted S me ety (by omega) f hcb hS
  obtain ⟨_, _, hcnt, _⟩ := hinv
  refine ⟨o1, o7, o4, o3, o2, ?_⟩
  rw [o2, o3, o4]
  omega

/-- Witness for C17: a prepend refused with -4. -/
theorem log_offer_first_shutdown_moves_front_witness :
    log_inv (sample_refusing_polled (-4)) ∧ 0 < (sample_refusing_polled (-4)).front ∧
    (log_offer_first (-4) (sample_refusing_polled (-4)) (entry_with_id 9)).1 = -4 ∧
    (log_offer_first (-4) (sample_refusing_polled (-4)) (entry_with_id 9)).2.front = 1 - 1 ∧
    (log_offer_first (-4) (sample_refusing_polled (-4)) (entry_with_id 9)).2.count =
      (log_offer_first (-4) (sample_refusing_polled (-4)) (entry_with_id 9)).2.back -
        (log_offer_first (-4) (sample_refusing_polled (-4)) (entry_with_id 9)).2.front - 1 := by
  have hinv : log_inv (sample_refusing_polled (-4)) := by
    simp [log_inv, sample_refusing_polled, sample_refusing, log_set_callbacks, log_new,
      log_clear, INITIAL_CAPACITY]
  have hfront : 0 < (sample_refusing_polled (-4)).front := by simp [sample_refusing_polled]
  obtain ⟨h1, _, _, _, h5, h6⟩ := log_offer_first_shutdown_moves_front (-4)
    (sample_refusing_polled (-4)) (entry_with_id 9) hinv hfront
    (fun ud _ _ => (ud + 1, -4)) rfl rfl
  exact ⟨hinv, hfront, h1, h5, h6⟩

/-- Counterexample to C18: on the polled sample log (size 10) `log_delete(INT_MIN)`
never returns, since its guard `idx <= me->back` holds for every `int`; and
already `log_delete(0)` on a new log, whose guard holds once, addresses slot -1,
which is no slot of the array. -/
theorem log_delete_int_never_returns :
    1 ≤ sample_polled.size ∧
    (¬ ∃ (fuel : Nat) (r : log_private_t Unit),
      log_delete_loop_int fuel sample_polled INT_MIN = some r) ∧
    log_delete_int sample_polled INT_MIN = none ∧
    ((0 : Int) ≤ (log_new : log_private_t Unit).back ∧
      __get_ety (log_new : log_private_t Unit)
        (wrap_int ((log_new : log_private_t Unit).back - 1)) = -1) := by
  have hdiv : ∀ fuel : Nat, log_delete_loop_int fuel sample_polled INT_MIN = none :=
    fun fuel => log_delete_loop_int_diverges fuel sample_polled INT_MIN (le_refl _)
      (by decide)
  refine ⟨by decide, ?_, hdiv _, by decide, by decide⟩
  intro ⟨fuel, r, h⟩
  rw [hdiv fuel] at h
  cases h

/-- C18, amended: with `size ≥ 1`, `back` and `count` in the range of `int`, and
`count` not falling below `INT_MIN`, for every idx ≥ 1 (none is rejected,
idx ≤ front included) `log_delete(idx)` returns after exactly
max(0, back - idx + 1) removal steps, each addressing a slot of the array;
afterwards `back` is min(old back, idx - 1), `count` has dropped by as much as
`back`, and `front` and `size` are unchanged. -/
theorem log_delete_int_unvalidated {σ : Type} (me : log_private_t σ) (idx : Int)
    (hsize : 1 ≤ me.size) (hidx : 1 ≤ idx) (hback : me.back ≤ INT_MAX)
    (hcount : me.count ≤ INT_MAX)
    (hlow : INT_MIN ≤ me.count - max 0 (me.back - idx + 1)) :
    ∃ r : log_private_t σ, log_delete_int me idx = some r ∧
      r = Nat.iterate log_delete_step_int (max 0 (me.back - idx + 1)).toNat me ∧
      (∀ fuel : Nat, (fuel : Int) < max 0 (me.back - idx + 1) →
        log_delete_loop_int fuel me idx = none) ∧
      (∀ b : Int, idx ≤ b → b ≤ me.back →
        0 ≤ __get_ety me (b - 1) ∧ __get_ety me (b - 1) < me.size) ∧
      r.back = min me.back (idx - 1) ∧ r.count = me.count - (me.back - r.back) ∧
      r.front = me.front ∧ r.size = me.size := by
  have hM := INT_MAX_eq
  have hm := INT_MIN_eq
  have hagree : ∀ fuel : Nat, log_delete_loop_int fuel me idx = log_delete_loop fuel me idx :=
    fun fuel => log_delete_loop_int_eq fuel me idx (by omega) hback hcount hlow
  obtain ⟨r, h0, h1, h2, h3, h4, _⟩ := log_delete_spec me idx
  have hex := log_delete_loop_exact (me.back - idx + 1).toNat me idx
  rw [if_pos (Int.self_le_toNat _)] at hex
  have hmax : (max 0 (me.back - idx + 1)).toNat = (me.back - idx + 1).toNat := by
    rw [max_def]
    split <;> omega
  have hiter : Nat.iterate log_delete_step_int (me.back - idx + 1).toNat me =
      Nat.iterate log_delete_step (me.back - idx + 1).toNat me := by
    by_cases hc : idx ≤ me.back
    · have hmx : max 0 (me.back - idx + 1) = me.back - idx + 1 := by
        rw [max_def]
        split <;> omega
      rw [hmx] at hlow
      exact log_delete_iterate_int_eq _ me (by omega) hback (by omega) hcount
    · have hz : (me.back - idx + 1).toNat = 0 := by omega
      rw [hz]
      simp only [Function.iterate_zero, id_eq]
  refine ⟨r, ?_, ?_, ?_, ?_, h1, h2, h3, h4⟩
  · show log_delete_loop_int (me.back - idx + 1).toNat me idx = some r
    rw [hagree]
    exact h0
  · rw [hmax, hiter]
    exact Option.some.inj (h0.symm.trans hex)
  · intro fuel hfuel
    rw [hagree, log_delete_loop_exact fuel me idx, if_neg]
    rw [max_def] at hfuel
    split at hfuel <;> omega
  · intro b hb1 hb2
    exact ⟨REL_POS_nonneg (by omega), REL_POS_lt (by omega)⟩

/-- Witness for C18 as amended: `log_delete(1)` on the polled sample log, whose
`front` is 1. -/
theorem log_delete_int_unvalidated_witness :
    1 ≤ sample_polled.size ∧ (1 : Int) ≤ 1 ∧ sample_polled.back ≤ INT_MAX ∧
    sample_polled.count ≤ INT_MAX ∧
    INT_MIN ≤ sample_polled.count - max 0 (sample_polled.back - 1 + 1) ∧
    ∃ r : log_private_t Unit, log_delete_int sample_polled 1 = some r ∧
      r = Nat.iterate log_delete_step_int (max 0 (sample_polled.back - 1 + 1)).toNat
        sample_polled ∧
      (∀ fuel : Nat, (fuel : Int) < max 0 (sample_polled.back - 1 + 1) →
        log_delete_loop_int fuel sample_polled 1 = none) ∧
      (∀ b : Int, 1 ≤ b → b ≤ sample_polled.back →
        0 ≤ __get_ety sample_polled (b - 1) ∧
        __get_ety sample_polled (b - 1) < sample_polled.size) ∧
      r.back = min sample_polled.back (1 - 1) ∧
      r.count = sample_polled.count - (sample_polled.back - r.back) ∧
      r.front = sample_polled.front ∧ r.size = sample_polled.size :=
  ⟨by decide, by decide, by decide, by decide, by decide,
    log_delete_int_unvalidated sample_polled 1 (by decide) (by decide) (by decide)
      (by decide) (by decide)⟩

/-- C19: on a log satisfying the invariant with `size ≥ 1`, `__ensurecapacity(k)`
returns; the new size is `size * 2^d`, holds `count + k`, and is the smallest
such value (so it is the old size when `count + k ≤ size`, and never less); the
cursors and the count are unchanged; and every live absolute index i finds at
slot i mod new size the entry it had at slot i mod old size. -/
theorem __ensurecapacity_smallest_doubling {σ : Type} (me : log_private_t σ) (k : Int)
    (hinv : log_inv me) (hsize : 1 ≤ me.size) :
    ∃ (r : log_private_t σ) (d : Nat), __ensurecapacity me k = some r ∧
      r.size = me.size * 2 ^ d ∧ me.count + k ≤ r.size ∧
      (∀ j : Nat, me.count + k ≤ me.size * 2 ^ j → r.size ≤ me.size * 2 ^ j) ∧
      (me.count + k ≤ me.size → r.size = me.size) ∧ me.size ≤ r.size ∧
      r.front = me.front ∧ r.back = me.back ∧ r.count = me.count ∧
      ∀ i : Int, me.front ≤ i → i < me.back →
        r.entries (i % r.size) = me.entries (i % me.size) := by
  obtain ⟨r, d, h0, h1, h2, h3, h4, h5, h6, _, _, h9⟩ :=
    __ensurecapacity_spec me k ⟨hinv, hsize⟩
  have hmono : ∀ a b : Nat, a ≤ b → me.size * 2 ^ a ≤ me.size * 2 ^ b := by
    intro a b hab
    have hp : (2 : Int) ^ a ≤ 2 ^ b := pow_le_pow_right₀ (by norm_num) hab
    exact Int.mul_le_mul_of_nonneg_left hp (by omega)
  have hsmall : ∀ j : Nat, me.count + k ≤ me.size * 2 ^ j → r.size ≤ me.size * 2 ^ j := by
    intro j hj
    by_cases hjd : j < d
    · have := h3 j hjd
      omega
    · rw [h1]
      exact hmono d j (by omega)
  have hge : me.size ≤ r.size := by
    have h' := hmono 0 d (Nat.zero_le d)
    rw [← h1] at h'
    simpa using h'
  refine ⟨r, d, h0, h1, h2, hsmall, ?_, hge, h4, h5, h6, ?_⟩
  · intro hle
    have h := hsmall 0 (by simpa using hle)
    simp at h
    omega
  · intro i hi1 hi2
    have hi0 : 0 ≤ i := le_trans hinv.1 hi1
    have hrs : 0 ≤ r.size := by omega
    have := h9 i hi1 hi2
    rw [REL_POS_eq_emod hi0 hrs, REL_POS_eq_emod hi0 (by omega)] at this
    exact this

/-- Witness for C19: room for three more in the full, wrapped sample log takes
two doublings. -/
theorem __ensurecapacity_smallest_doubling_witness :
    log_inv sample_wrapped ∧ 1 ≤ sample_wrapped.size ∧
    ∃ (r : log_private_t Unit) (d : Nat), __ensurecapacity sample_wrapped 3 = some r ∧
      r.size = sample_wrapped.size * 2 ^ d ∧ sample_wrapped.count + 3 ≤ r.size ∧
      (∀ j : Nat, sample_wrapped.count + 3 ≤ sample_wrapped.size * 2 ^ j →
        r.size ≤ sample_wrapped.size * 2 ^ j) ∧
      (sample_wrapped.count + 3 ≤ sample_wrapped.size → r.size = sample_wrapped.size) ∧
      sample_wrapped.size ≤ r.size ∧
      r.front = sample_wrapped.front ∧ r.back = sample_wrapped.back ∧
      r.count = sample_wrapped.count ∧
      ∀ i : Int, sample_wrapped.front ≤ i → i < sample_wrapped.back →
        r.entries (i % r.size) = sample_wrapped.entries (i % sample_wrapped.size) :=
  ⟨by simp [log_inv, sample_wrapped], by simp [sample_wrapped],
    __ensurecapacity_smallest_doubling sample_wrapped 3 (by simp [log_inv, sample_wrapped])
      (by simp [sample_wrapped])⟩

end RaftLog
